import Mathlib

/-!
Verification of the finding-extraction / patch-normalization / triage core of the
pre-commit code-review tooling.  The Python sources are shallowly embedded:
all string manipulation is modelled on `List Char` (Python `str` is a sequence of
unicode code points, as is `List Char` here), dictionaries are modelled as
insertion-ordered association lists, and the interactive loop is modelled as a
pure transition function whose external collaborators (AI assistant, `git apply`,
user confirmations) are oracle parameters.
-/

namespace CodeReview

/-! ### Python string primitives -/

/-- Python's `str.replace("\r\n", "\n")`: left-to-right, non-overlapping. -/
def replCRLF : List Char → List Char
  | [] => []
  | [c] => [c]
  | c1 :: c2 :: t =>
    if c1 = '\r' ∧ c2 = '\n' then '\n' :: replCRLF t
    else c1 :: replCRLF (c2 :: t)

/-- Python's `str.replace("\r", "\n")` (single-character replace). -/
def mapCR (l : List Char) : List Char :=
  l.map (fun c => if c = '\r' then '\n' else c)

/-- The characters stripped by Python's default `str.strip()` (ASCII fragment). -/
def pyIsWs (c : Char) : Bool :=
  c = ' ' ∨ c = '\t' ∨ c = '\n' ∨ c = '\r' ∨ c = '\x0b' ∨ c = '\x0c'

/-- Python `str.lstrip()`. -/
def lstripWs (l : List Char) : List Char := l.dropWhile pyIsWs

/-- Python `str.rstrip()`. -/
def rstripWs (l : List Char) : List Char := (l.reverse.dropWhile pyIsWs).reverse

/-- Python `str.strip()`. -/
def pyStrip (l : List Char) : List Char := lstripWs (rstripWs l)

/-- Python `str.lstrip("\n")` (only newline characters). -/
def lstripNL (l : List Char) : List Char := l.dropWhile (fun c => c = '\n')

/-- Python `str.rstrip("\n")`. -/
def rstripNL (l : List Char) : List Char :=
  (l.reverse.dropWhile (fun c => c = '\n')).reverse

/-- Python `str.strip("\n")`. -/
def stripNLends (l : List Char) : List Char := lstripNL (rstripNL l)

/-- Boolean list-prefix test (`l2.startswith(l1)` at the character level). -/
def pfx : List Char → List Char → Bool
  | [], _ => true
  | _ :: _, [] => false
  | a :: as, b :: bs => a = b && pfx as bs

/-- Association-list lookup, first binding wins (Python dict lookup). -/
def getA {α : Type} (k : String) : List (String × α) → Option α
  | [] => none
  | kv :: t => if kv.1 = k then some kv.2 else getA k t

/-- String list membership (Python `x in ids`). -/
def elemS (x : String) : List String → Bool
  | [] => false
  | y :: t => x = y || elemS x t

/-- `hasPre p l` is Python's `l.startswith(p)`. -/
def hasPre (p : String) (l : List Char) : Bool := pfx p.data l

/-- Python `str.split("\n")`. `splitNL "" = [""]` just as in Python. -/
def splitNL : List Char → List (List Char)
  | [] => [[]]
  | c :: cs =>
    if c = '\n' then [] :: splitNL cs
    else
      match splitNL cs with
      | [] => [[c]]
      | l :: ls => (c :: l) :: ls

/-- Python `"\n".join(lines)`. -/
def interNL : List (List Char) → List Char
  | [] => []
  | [l] => l
  | l :: ls => l ++ '\n' :: interNL ls

/-- Python's `sub in s` substring containment. -/
def hasSub (sub : List Char) : List Char → Bool
  | [] => pfx sub ([] : List Char)
  | c :: cs => pfx sub (c :: cs) || hasSub sub cs

/-- First index at which `sub` occurs, Python `s.find(sub)` (as an `Option`). -/
def findSubIdx (sub : List Char) : List Char → Option Nat
  | [] => if pfx sub ([] : List Char) then some 0 else none
  | c :: cs =>
    if pfx sub (c :: cs) then some 0
    else (findSubIdx sub cs).map (· + 1)

/-- The suffix following the first occurrence of `sub`, or `none`. -/
def findSubAfter (sub : List Char) : List Char → Option (List Char)
  | [] => if pfx sub ([] : List Char) then some [] else none
  | c :: cs =>
    if pfx sub (c :: cs) then some ((c :: cs).drop sub.length)
    else findSubAfter sub cs

/-- The longest initial segment not containing `sub`
(in the regex engine: a lazy `.*?` whose terminator alternation ends in end-of-string). -/
def takeUntilSub (sub : List Char) : List Char → List Char
  | [] => []
  | c :: cs =>
    if pfx sub (c :: cs) then []
    else c :: takeUntilSub sub cs

/-- Fuel-driven removal of every occurrence of `sub` (Python `s.replace(sub, "")`,
left-to-right, non-overlapping; the fuel is always instantiated to the list length,
which suffices because each step consumes at least one character). -/
def remSubF (sub : List Char) : Nat → List Char → List Char
  | 0, l => l
  | _ + 1, [] => []
  | fuel + 1, c :: cs =>
    if pfx sub (c :: cs) then remSubF sub fuel ((c :: cs).drop sub.length)
    else c :: remSubF sub fuel cs

/-- Python `s.replace(sub, "")` for a non-empty `sub`. -/
def remSub (sub : String) (l : List Char) : List Char := remSubF sub.data l.length l

/-- Lowercase / uppercase maps (ASCII, matching the grades and labels in scope). -/
def lowerL (l : List Char) : List Char := l.map Char.toLower

def upperL (l : List Char) : List Char := l.map Char.toUpper

/-! ### SHA-256 (pure, over byte lists) -/

/-- UTF-8 encoding of one character, as byte values. -/
def utf8Char (c : Char) : List Nat :=
  let n := c.toNat
  if n < 128 then [n]
  else if n < 2048 then [192 + n / 64, 128 + n % 64]
  else if n < 65536 then [224 + n / 4096, 128 + (n / 64) % 64, 128 + n % 64]
  else [240 + n / 262144, 128 + (n / 4096) % 64, 128 + (n / 64) % 64, 128 + n % 64]

def utf8Enc (l : List Char) : List Nat := l.flatMap utf8Char

def w32 : Nat := 4294967296

def rotr (n x : Nat) : Nat := ((x >>> n) ||| (x <<< (32 - n))) % w32

def shaCh (e f g : Nat) : Nat := ((e &&& f) ^^^ ((w32 - 1 - e) &&& g)) % w32

def shaMaj (a b c : Nat) : Nat := ((a &&& b) ^^^ (a &&& c) ^^^ (b &&& c)) % w32

def bigSigma0 (x : Nat) : Nat := (rotr 2 x ^^^ rotr 13 x ^^^ rotr 22 x) % w32

def bigSigma1 (x : Nat) : Nat := (rotr 6 x ^^^ rotr 11 x ^^^ rotr 25 x) % w32

def smallSigma0 (x : Nat) : Nat := (rotr 7 x ^^^ rotr 18 x ^^^ (x >>> 3)) % w32

def smallSigma1 (x : Nat) : Nat := (rotr 17 x ^^^ rotr 19 x ^^^ (x >>> 10)) % w32

def shaK : List Nat :=
  [1116352408, 1899447441, 3049323471, 3921009573, 961987163, 1508970993,
   2453635748, 2870763221, 3624381080, 310598401, 607225278, 1426881987,
   1925078388, 2162078206, 2614888103, 3248222580, 3835390401, 4022224774,
   264347078, 604807628, 770255983, 1249150122, 1555081692, 1996064986,
   2554220882, 2821834349, 2952996808, 3210313671, 3336571891, 3584528711,
   113926993, 338241895, 666307205, 773529912, 1294757372, 1396182291,
   1695183700, 1986661051, 2177026350, 2456956037, 2730485921, 2820302411,
   3259730800, 3345764771, 3516065817, 3600352804, 4094571909, 275423344,
   430227734, 506948616, 659060556, 883997877, 958139571, 1322822218,
   1537002063, 1747873779, 1955562222, 2024104815, 2227730452, 2361852424,
   2428436474, 2756734187, 3204031479, 3329325298]

def shaH0 : List Nat :=
  [1779033703, 3144134277, 1013904242, 2773480762,
   1359893119, 2600822924, 528734635, 1541459225]

/-- Pad a byte message per SHA-256 (append 0x80, zeros, 64-bit big-endian bit length). -/
def shaPad (msg : List Nat) : List Nat :=
  let len := msg.length
  let bitLen := 8 * len
  let k := (119 - len % 64) % 64
  msg ++ 128 :: List.replicate k 0 ++
    (List.range 8).map (fun i => (bitLen >>> (8 * (7 - i))) % 256)

/-- The sixteen 32-bit big-endian words of one 64-byte block. -/
def blockWords (b : List Nat) : List Nat :=
  (List.range 16).map (fun j =>
    b.getD (4 * j) 0 * 16777216 + b.getD (4 * j + 1) 0 * 65536 +
    b.getD (4 * j + 2) 0 * 256 + b.getD (4 * j + 3) 0)

/-- Extend sixteen words to the 64-word message schedule. -/
def shaSched (w : List Nat) : List Nat :=
  (List.range 48).foldl
    (fun w _ =>
      let t := w.length
      w ++ [(smallSigma1 (w.getD (t - 2) 0) + w.getD (t - 7) 0 +
             smallSigma0 (w.getD (t - 15) 0) + w.getD (t - 16) 0) % w32])
    w

/-- One round of the compression function; the state is `[a,b,c,d,e,f,g,h]`. -/
def shaRound (st : List Nat) (wk : Nat × Nat) : List Nat :=
  let a := st.getD 0 0
  let b := st.getD 1 0
  let c := st.getD 2 0
  let d := st.getD 3 0
  let e := st.getD 4 0
  let f := st.getD 5 0
  let g := st.getD 6 0
  let h := st.getD 7 0
  let t1 := (h + bigSigma1 e + shaCh e f g + wk.2 + wk.1) % w32
  let t2 := (bigSigma0 a + shaMaj a b c) % w32
  [(t1 + t2) % w32, a, b, c, (d + t1) % w32, e, f, g]

/-- Process one 64-byte block starting from hash state `h`. -/
def shaBlock (h : List Nat) (b : List Nat) : List Nat :=
  let w := shaSched (blockWords b)
  let out := (w.zip shaK).foldl shaRound h
  (h.zip out).map (fun p => (p.1 + p.2) % w32)

/-- SHA-256 digest (as eight 32-bit words) of a byte message. -/
def sha256Words (msg : List Nat) : List Nat :=
  let padded := shaPad msg
  let nBlocks := padded.length / 64
  ((List.range nBlocks).map (fun i => (padded.drop (64 * i)).take 64)).foldl
    shaBlock shaH0

def hexDigit (n : Nat) : Char :=
  if n < 10 then Char.ofNat (48 + n) else Char.ofNat (87 + n)

/-- Lowercase hex expansion of one 32-bit word (8 digits, big-endian). -/
def wordHex (w : Nat) : List Char :=
  (List.range 8).map (fun i => hexDigit ((w >>> (4 * (7 - i))) % 16))

/-- Python `hashlib.sha256(bytes).hexdigest()` as a character list. -/
def sha256hex (msg : List Nat) : List Char :=
  (sha256Words msg).flatMap wordHex

/-- `sha256(raw.encode("utf-8")).hexdigest()[:16]`: the identifier computation. -/
def idOf (raw : List Char) : String := String.mk ((sha256hex (utf8Enc raw)).take 16)

/-! ### Report parser (`interactive_review.parse_bad_findings` and helpers) -/

/-- Structured information about a single BAD change assessment
(`interactive_review.Finding`). -/
structure Finding where
  identifier : String
  title : String
  file : String
  lines : String
  suggestion : String
  raw_block : String
  details : String := ""
  reasoning : String := ""
  function : String := ""
deriving DecidableEq, Repr

/-- `canonicalize_label`: map a markdown field label to an internal attribute name. -/
def canonicalize_label (label : List Char) : Option String :=
  let n := pyStrip (lowerL label)
  let n := remSub ("(if 'bad')") n
  let n := remSub ("(if \"bad\")") n
  let n := remSub ("(if bad)") n
  let n := pyStrip ((n.reverse.dropWhile (fun c => c = ':')).reverse)
  let s := String.mk n
  if s = "title" then some ("title")
  else if s = "file" then some ("file")
  else if s = "function" then some ("function")
  else if s = "lines" then some ("lines")
  else if s = "line" then some ("lines")
  else if s = "details" then some ("details")
  else if s = "suggestion" then some ("suggestion")
  else if s = "reasoning" then some ("reasoning")
  else none

/-- `clean_value`: trim trailing whitespace, dropping a trailing backslash marker. -/
def clean_value (text : List Char) : List Char :=
  let cleaned := rstripWs text
  if cleaned.getLast? = some '\\' then rstripWs cleaned.dropLast else cleaned

/-- The accumulating dictionaries in `parse_fields` are insertion-ordered
association lists, exactly like Python dicts. -/
def setdefaultF (fs : List (String × List (List Char))) (k : String) :
    List (String × List (List Char)) :=
  if (getA k fs).isSome then fs else fs ++ [(k, [])]

def appendF (fs : List (String × List (List Char))) (k : String) (v : List Char) :
    List (String × List (List Char)) :=
  fs.map (fun kv => if kv.1 = k then (kv.1, kv.2 ++ [v]) else kv)

def ensureAppend (fs : List (String × List (List Char))) (k : String) (v : List Char) :
    List (String × List (List Char)) :=
  appendF (setdefaultF fs k) k v

structure FieldAcc where
  fields : List (String × List (List Char))
  current : Option String

/-- One iteration of the line loop inside `parse_fields`. -/
def parse_fields_step (acc : FieldAcc) (raw_line : List Char) : FieldAcc :=
  let stripped := pyStrip raw_line
  if stripped = [] then
    match acc.current with
    | some k => { acc with fields := ensureAppend acc.fields k [] }
    | none => acc
  else if hasPre ("---") stripped ∨ hasPre ("### ") stripped then
    { acc with current := none }
  else
    let fallback : FieldAcc :=
      match acc.current with
      | some k => { acc with fields := ensureAppend acc.fields k (clean_value raw_line) }
      | none => acc
    if hasPre ("**") stripped then
      match findSubIdx ("**").data (stripped.drop 2) with
      | some j =>
        let label := (stripped.drop 2).take j
        let remainder := ((stripped.drop 2).drop (j + 2)).dropWhile
          (fun c => c = ':' ∨ c = ' ')
        match canonicalize_label label with
        | some name =>
          let fs1 := setdefaultF acc.fields name
          let fs2 := if remainder ≠ [] then appendF fs1 name (clean_value remainder) else fs1
          { fields := fs2, current := some name }
        | none => fallback
      | none => fallback
    else fallback

/-- `parse_fields`: parse the markdown field/value pairs from a BAD review block. -/
def parse_fields (block_body : List Char) : List (String × String) :=
  let acc := (splitNL block_body).foldl parse_fields_step ⟨[], none⟩
  acc.fields.map (fun kv => (kv.1, String.mk (stripNLends (interNL kv.2))))

/-- The literal head of the per-block regex in `parse_bad_findings`. -/
def assessLit : List Char := ("### Assessment of the change:").data

def isUpperAZ (c : Char) : Bool := 'A' ≤ c ∧ c ≤ 'Z'

/-- Split at the first newline: the lazy `.*?\n` of the block regex. -/
def splitFirstNL : List Char → Option (List Char × List Char)
  | [] => none
  | c :: cs =>
    if c = '\n' then some ([], cs)
    else (splitFirstNL cs).map (fun p => (c :: p.1, p.2))

/-- The lazy body `.*?` bounded by the lookahead
`(?=\n### Assessment|\n## |\Z)`: consume until the remainder starts with a
terminator (or is exhausted), returning body and remainder. -/
def takeBody : List Char → List Char × List Char
  | [] => ([], [])
  | c :: cs =>
    if hasPre ("\n### Assessment") (c :: cs) ∨ hasPre ("\n## ") (c :: cs) then ([], c :: cs)
    else
      let p := takeBody cs
      (c :: p.1, p.2)

/-- Attempt the block regex
`### Assessment of the change:\s*([A-Z]+).*?\n(.*?)(?=\n### Assessment|\n## |\Z)`
at exactly this position; on success return (grade, body, whole match, remainder). -/
def tryAssess (cs : List Char) : Option (List Char × List Char × List Char × List Char) :=
  let afterLit := cs.drop assessLit.length
  let ws := afterLit.takeWhile pyIsWs
  let rest1 := afterLit.dropWhile pyIsWs
  let g := rest1.takeWhile isUpperAZ
  if g = [] then none
  else
    match splitFirstNL (rest1.drop g.length) with
    | none => none
    | some (mid, rest3) =>
      let p := takeBody rest3
      some (g, p.1, assessLit ++ ws ++ g ++ mid ++ '\n' :: p.1, p.2)

/-- The `finditer` scan of the block regex: fuel-driven left-to-right search,
continuing after the end of each (non-empty) match, or one character onward
after a position where the pattern cannot match.  The fuel is instantiated
with the list length, which suffices (each step strictly shortens the input). -/
def findAssessF : Nat → List Char → List (List Char × List Char × List Char)
  | 0, _ => []
  | _ + 1, [] => []
  | fuel + 1, c :: cs =>
    if pfx assessLit (c :: cs) then
      match tryAssess (c :: cs) with
      | some (g, body, raw, rest) => (g, body, raw) :: findAssessF fuel rest
      | none => findAssessF fuel cs
    else findAssessF fuel cs

def findAssess (cs : List Char) : List (List Char × List Char × List Char) :=
  findAssessF cs.length cs

/-- Build a `Finding` from the raw matched block (already `.strip()`ed) and its body. -/
def mkFinding (raw body : List Char) : Finding :=
  let fields := parse_fields body
  let get := fun (k : String) => (getA k fields).getD ("")
  { identifier := idOf raw
    title := get ("title")
    file := get ("file")
    lines := get ("lines")
    suggestion := get ("suggestion")
    raw_block := String.mk raw
    details := get ("details")
    reasoning := get ("reasoning")
    function := get ("function") }

/-- `parse_bad_findings`: extract BAD assessments from the Change-by-Change section. -/
def parse_bad_findings (review_text : String) : List Finding :=
  let normalized := replCRLF review_text.data
  match findSubAfter ("## Change-by-Change Review").data normalized with
  | none => []
  | some rest =>
    let sect := takeUntilSub ("\n## ").data rest
    (findAssess sect).filterMap (fun t =>
      let grade := String.mk (upperL (pyStrip t.1))
      if grade = "BAD" then some (mkFinding (pyStrip t.2.2) t.2.1) else none)

/-- A whole assessment block of a report, as written by the reviewer: a grade
word and the block body following the heading line. -/
structure RBlock where
  grade : List Char
  body : List Char
deriving DecidableEq, Repr

/-- The raw text of one assessment block (heading line plus body). -/
def rawOf (b : RBlock) : List Char := assessLit ++ ' ' :: (b.grade ++ '\n' :: b.body)

/-- One block as it appears inside the findings section, preceded by the
newline that separates it from the previous line. -/
def chunk (b : RBlock) : List Char := '\n' :: rawOf b

def chunks : List RBlock → List Char
  | [] => []
  | b :: bs => chunk b ++ chunks bs

/-- A report consisting of the findings-section marker followed by the given
assessment blocks. -/
def mkReport (bs : List RBlock) : String :=
  String.mk (("## Change-by-Change Review").data ++ chunks bs)

/-- A well-formed block: nonempty all-uppercase grade, and a body free of
`#` (so it contains no heading-like line) and of carriage returns. -/
def okBlock (b : RBlock) : Prop :=
  b.grade ≠ [] ∧ (∀ c ∈ b.grade, isUpperAZ c = true) ∧
  (∀ c ∈ b.body, ¬ c = '#' ∧ ¬ c = '\r')

instance (b : RBlock) : Decidable (okBlock b) :=
  decidable_of_iff (b.grade ≠ [] ∧ (∀ c ∈ b.grade, isUpperAZ c = true) ∧
    (∀ c ∈ b.body, ¬ c = '#' ∧ ¬ c = '\r')) Iff.rfl

/-! ### Diff extraction (`extract_patch`) -/

/-- The lazy interior `(.*?)` of the fence regex: characters up to the
earliest closing triple backtick; `none` if no closing fence follows. -/
def findClose : List Char → Option (List Char)
  | [] => none
  | c :: cs =>
    if pfx ("```").data (c :: cs) then some []
    else (findClose cs).map (fun l => c :: l)

def tryTag (tag : String) (rest : List Char) : Option (List Char) :=
  if pfx (tag.data ++ ['\n']) rest then findClose (rest.drop (tag.data.length + 1))
  else none

/-- Attempt the fence regex ```` ```(?:diff|patch|suggestion)?\n(.*?)``` ````
at exactly this position, trying the tag alternatives in the regex's order. -/
def fenceAt (cs : List Char) : Option (List Char) :=
  if pfx ("```").data cs then
    (tryTag ("diff") (cs.drop 3)).orElse (fun _ =>
      (tryTag ("patch") (cs.drop 3)).orElse (fun _ =>
        (tryTag ("suggestion") (cs.drop 3)).orElse (fun _ => tryTag ("") (cs.drop 3))))
  else none

/-- `re.search` of the fence regex: first start position admitting a match. -/
def fenceSearch : List Char → Option (List Char)
  | [] => none
  | c :: cs =>
    match fenceAt (c :: cs) with
    | some i => some i
    | none => fenceSearch cs

/-- `extract_patch`: extract a diff block from the AI response. -/
def extract_patch (ai_output : String) : Option String :=
  (fenceSearch ai_output.data).map (fun raw =>
    let p := pyStrip raw
    String.mk (if p.getLast? = some '\n' then p else p ++ ['\n']))

/-! ### Diff normalization (`postprocess_review.prepare_patch_for_application`) -/

namespace Postprocess

/-- The `while cleaned.startswith("./")` loop in `sanitize_path`. -/
def dropDotSlash : List Char → List Char
  | '.' :: '/' :: t => dropDotSlash t
  | l => l

/-- `sanitize_path`: normalize file path hints for diff headers. -/
def sanitize_path (path : String) : List Char :=
  dropDotSlash ((pyStrip path.data).map (fun c => if c = '\\' then '/' else c))

/-- The `--- `/`+++ ` rewriting applied to each line by the header loop. -/
def rwHeader (ph : List Char) (l : List Char) : List Char :=
  if hasPre ("--- ") l then
    if ph ≠ [] ∧ ¬ hasSub ("/dev/null").data l then ("--- a/").data ++ ph else l
  else if hasPre ("+++ ") l then
    if ph ≠ [] ∧ ¬ hasSub ("/dev/null").data l then ("+++ b/").data ++ ph else l
  else l

/-- Replace the first line satisfying `p` by `r` (the `break`ing first loop). -/
def replaceFirst (p : List Char → Bool) (r : List Char) : List (List Char) → List (List Char)
  | [] => []
  | x :: xs => if p x then r :: xs else x :: replaceFirst p r xs

/-- Insert the synthesized `--- `/`+++ ` headers immediately before the first
hunk header (`prepared[first_hunk:first_hunk] = header`). -/
def insertHdrs (ph : List Char) : List (List Char) → Option (List (List Char))
  | [] => none
  | l :: t =>
    if hasPre ("@@") l then
      some ((("--- a/").data ++ ph) :: (("+++ b/").data ++ ph) :: l :: t)
    else (insertHdrs ph t).map (fun r => l :: r)

/-- The `diff --git` line synthesized for the path hint. -/
def dgLine (ph : List Char) : List Char :=
  ("diff --git a/").data ++ ph ++ (" b/").data ++ ph

/-- The first loop of `prepare_patch_for_application`: rewrite the first
`diff --git ` line (breaking), or insert one at the top when absent. -/
def dgStep (ph : List Char) (L : List (List Char)) : List (List Char) :=
  if L.any (fun l => hasPre ("diff --git ") l) then
    if ph ≠ [] then replaceFirst (fun l => hasPre ("diff --git ") l) (dgLine ph) L else L
  else if ph ≠ [] then dgLine ph :: L else L

/-- The body of `prepare_patch_for_application` after line splitting:
`ph` is the sanitized path hint and `L` the list of lines. -/
def prepareLines (ph : List Char) (L : List (List Char)) : Option (List (List Char)) :=
  if ¬ L.any (fun l => hasPre ("@@") l) then none
  else
    let L1 := dgStep ph L
    let hasOld := L1.any (fun l => hasPre ("--- ") l)
    let hasNew := L1.any (fun l => hasPre ("+++ ") l)
    let L2 := L1.map (rwHeader ph)
    if (hasOld ∧ ¬ hasNew) ∨ (hasNew ∧ ¬ hasOld) then none
    else
      let synth : Option (List (List Char)) :=
        if ¬ hasOld ∧ ¬ hasNew then
          if ph = [] then none else insertHdrs ph L2
        else some L2
      match synth with
      | none => none
      | some L3 =>
        some (if ph ≠ [] ∧ ¬ L3.any (fun l => hasPre ("diff --git ") l) then dgLine ph :: L3
              else L3)

/-- The normalized line list of a patch text:
`patch.replace("\r\n","\n").replace("\r","\n").strip("\n").split("\n")`. -/
def normLines (patch : String) : List (List Char) :=
  splitNL (stripNLends (mapCR (replCRLF patch.data)))

/-- `postprocess_review.prepare_patch_for_application`:
adjust a diff so it is acceptable to git apply. -/
def prepare_patch_for_application (patch : String) (file_path : Option String) :
    Option String :=
  let normalized := stripNLends (mapCR (replCRLF patch.data))
  if normalized = [] then none
  else
    let ph := match file_path with
      | some f => sanitize_path f
      | none => []
    match prepareLines ph (splitNL normalized) with
    | none => none
    | some M => some (String.mk (rstripNL (interNL M) ++ ['\n']))

end Postprocess

/-! ### Interactive patch validation (`interactive_review.prepare_patch_for_application`) -/

namespace Interactive

/-- `interactive_review.prepare_patch_for_application`: validate and normalize a
diff before piping it to git apply.  Note: unlike the postprocess normalizer it
takes no target path and synthesizes nothing — it only checks that `--- `,
`+++ ` and `@@ ` lines are all already present. -/
def prepare_patch_for_application (patch : String) : Option String :=
  let normalized := stripNLends (replCRLF patch.data)
  if pyStrip normalized = [] then none
  else
    let n2 := if normalized.getLast? = some '\n' then normalized else normalized ++ ['\n']
    let L := splitNL n2
    if L.any (fun l => hasPre ("--- ") l) then
      if L.any (fun l => hasPre ("+++ ") l) then
        if L.any (fun l => hasPre ("@@ ") l) then some (String.mk n2) else none
      else none
    else none

end Interactive

/-! ### Triage store (`ensure_state_for_findings`, `find_first_pending_index`) -/

/-- One persisted per-finding record.  In the Python source the record is a
dict whose keys are read with defaults equal to these initializers, so a total
record with those defaults is an observationally equivalent model. -/
structure TriageEntry where
  status : String := "pending"
  last_ai_output : String := ""
  last_patch : String := ""
  last_patch_source : String := ""
deriving DecidableEq, Repr

def freshEntry : TriageEntry := {}

/-- The persisted state dict.  `review_hash`/`current_index` may be absent
(e.g. when the state file was missing or unreadable), hence `Option`;
`findings` is an insertion-ordered association list like a Python dict. -/
structure TriageState where
  review_hash : Option String
  findings : List (String × TriageEntry)
  current_index : Option Nat
deriving DecidableEq, Repr

/-- `ensure_state_for_findings`: normalize the state structure for the current
review file. -/
def ensure_state_for_findings (state : TriageState) (review_hash : String)
    (findings : List Finding) : TriageState :=
  let finding_ids := findings.map (fun f => f.identifier)
  let st1 :=
    if state.review_hash ≠ some review_hash then
      { review_hash := some review_hash, findings := [], current_index := some 0 }
    else state
  let kept := st1.findings.filter (fun kv => elemS kv.1 finding_ids)
  let fs := findings.foldl
    (fun acc f =>
      if (getA f.identifier acc).isSome then acc else acc ++ [(f.identifier, freshEntry)])
    kept
  { review_hash := st1.review_hash
    findings := fs
    current_index := some (st1.current_index.getD 0) }

/-- `findings_state.get(identifier, {}).get("status", "pending")`. -/
def statusOf (st : TriageState) (id : String) : String :=
  ((getA id st.findings).getD freshEntry).status

def resolvedStatus (s : String) : Bool := s = "acknowledged" ∨ s = "fixed"

def ffpAux (st : TriageState) : List Finding → Nat
  | [] => 0
  | f :: t => if resolvedStatus (statusOf st f.identifier) then ffpAux st t + 1 else 0

/-- `find_first_pending_index`: index of the first finding whose status is
neither acknowledged nor fixed; the list length if all are resolved. -/
def find_first_pending_index (findings : List Finding) (st : TriageState) : Nat :=
  ffpAux st findings

/-- The cursor the interactive loop actually starts from
(`interactive_loop` lines computing `index` before the `while`). -/
def initial_index (findings : List Finding) (st : TriageState) : Nat :=
  let c := st.current_index.getD (find_first_pending_index findings st)
  let i := min c findings.length
  if findings.length ≤ i then find_first_pending_index findings st else i

/-! ### Workflow controller (`interactive_loop`, one command at a time) -/

/-- Python dict assignment `findings_state[id] = e`. -/
def setEntry (fs : List (String × TriageEntry)) (id : String) (e : TriageEntry) :
    List (String × TriageEntry) :=
  if (getA id fs).isSome then fs.map (fun kv => if kv.1 = id then (id, e) else kv)
  else fs ++ [(id, e)]

def entryOf (st : TriageState) (id : String) : TriageEntry :=
  (getA id st.findings).getD freshEntry

/-- A command together with the oracle answers of the external collaborators it
consults: `aiOut` is the assistant's raw output (or failure), `confirm` the
patch confirmation answer, `aiConfirm` the on-demand "generate an AI fix?"
answer, `gitOk` whether `git apply` succeeds on the piped patch. -/
inductive Cmd where
  | next
  | prev
  | openEditor
  | help
  | quit
  | unknown
  | fix (aiOut : Option String)
  | apply (aiConfirm : Bool) (aiOut : Option String) (confirm : Bool) (gitOk : Bool)
deriving Repr

/-- `apply_patch` with the `git apply` outcome supplied as an oracle: the real
function re-validates via `prepare_patch_for_application` and fails without
invoking git when that returns `None`. -/
def gitApplyOk (patch : String) (gitOk : Bool) : Bool :=
  match Interactive.prepare_patch_for_application patch with
  | none => false
  | some _ => gitOk

/-- Phase (2) of the `apply` command's patch resolution: a diff embedded in
the finding's own suggestion text, entered with the entry/written-flag/source
left by phase (1). -/
def applyResolveSugg (e1 : TriageEntry) (w1 : Bool) (s1 : String) (suggestion : String) :
    TriageEntry × Bool × String × String :=
  if suggestion ≠ "" then
    match extract_patch suggestion with
    | some sp =>
      match Interactive.prepare_patch_for_application sp with
      | some ps =>
        ({ e1 with last_patch := ps, last_patch_source := "suggestion" }, true, ps,
         "suggestion")
      | none => (e1, w1, "", s1)
    | none => (e1, w1, "", s1)
  else (e1, w1, "", s1)

/-- Phases (1)-(2) of the `apply` command's patch resolution (cached patch,
then a diff embedded in the finding's suggestion).  Returns the updated entry,
whether it was written back to the store, the resolved patch (`""` if the
command must fall through to the on-demand AI phase) and its provenance.
(`prepare_patch_for_application` never returns an empty string, so a cached
patch that normalizes is final, exactly as in the Python truthiness test.) -/
def applyResolve (entry : TriageEntry) (suggestion : String) :
    TriageEntry × Bool × String × String :=
  if entry.last_patch ≠ "" then
    match Interactive.prepare_patch_for_application entry.last_patch with
    | some pp => (entry, false, pp, entry.last_patch_source)
    | none =>
      applyResolveSugg { entry with last_patch := "", last_patch_source := "" } true ""
        suggestion
  else applyResolveSugg entry false entry.last_patch_source suggestion

/-- The entry update performed by the `fix` command on a non-empty AI output. -/
def fixEntry (entry : TriageEntry) (out : String) : TriageEntry :=
  let e2 := { entry with last_ai_output := out }
  match extract_patch out with
  | some p => { e2 with last_patch := p, last_patch_source := "ai" }
  | none => { e2 with last_patch := "", last_patch_source := "" }

/-- The preview/confirm/apply tail of the `apply` command. -/
def confirmPhase (fid : String) (index : Nat) (st : TriageState) (e : TriageEntry)
    (patch source : String) (confirm gitOk : Bool) : Nat × TriageState :=
  if ¬ confirm then (index, st)
  else if gitApplyOk patch gitOk then
    let e2 := { e with status := "fixed", last_patch_source := source }
    (index + 1,
     { st with findings := setEntry st.findings fid e2, current_index := some (index + 1) })
  else (index, { st with current_index := some index })

/-- The on-demand assistant phase of the `apply` command (reached when neither
the cached patch nor the suggestion produced a usable diff and the user
confirmed the AI invocation). -/
def aiPhase (fid : String) (index : Nat) (st1 : TriageState) (e1 : TriageEntry)
    (aiOut : Option String) (confirm gitOk : Bool) : Nat × TriageState :=
  match aiOut with
  | none => (index, st1)
  | some out =>
    let e2 := { e1 with last_ai_output := out }
    match extract_patch out with
    | none =>
      (index,
       { st1 with findings :=
          setEntry st1.findings fid { e2 with last_patch := "", last_patch_source := "" } })
    | some ap =>
      match Interactive.prepare_patch_for_application ap with
      | none =>
        (index,
         { st1 with findings :=
            setEntry st1.findings fid { e2 with last_patch := "", last_patch_source := "" } })
      | some pap =>
        let e3 := { e2 with last_patch := pap, last_patch_source := "ai" }
        confirmPhase fid index { st1 with findings := setEntry st1.findings fid e3 } e3 pap
          ("ai") confirm gitOk

/-- The whole `apply` command on the finding with identifier `fid` and
suggestion text `suggestion`: resolution phases (1)-(3), then the
confirmation/apply tail. -/
def applyCommand (fid suggestion : String) (index : Nat) (st : TriageState)
    (aiConfirm : Bool) (aiOut : Option String) (confirm gitOk : Bool) : Nat × TriageState :=
  let r := applyResolve (entryOf st fid) suggestion
  let st1 := if r.2.1 then { st with findings := setEntry st.findings fid r.1 } else st
  if r.2.2.1 = "" then
    if ¬ aiConfirm then (index, st1)
    else aiPhase fid index st1 r.1 aiOut confirm gitOk
  else confirmPhase fid index st1 r.1 r.2.2.1 r.2.2.2 confirm gitOk

/-- One iteration of `interactive_loop`'s command dispatch, as a pure
transition on (cursor, persisted state).  Outside the loop guard
(`index ≥ len(findings)`) no command is processed. -/
def interactive_step (findings : List Finding) (cmd : Cmd) (index : Nat)
    (st : TriageState) : Nat × TriageState :=
  match findings.get? index with
  | none => (index, st)
  | some finding =>
    let fid := finding.identifier
    let entry := entryOf st fid
    match cmd with
    | .help => (index, st)
    | .quit => (index, st)
    | .openEditor => (index, st)
    | .unknown => (index, st)
    | .prev =>
      let i2 := index - 1
      (i2, { st with current_index := some i2 })
    | .next =>
      let e2 := { entry with status := "acknowledged" }
      (index + 1,
       { st with findings := setEntry st.findings fid e2,
                 current_index := some (index + 1) })
    | .fix aiOut =>
      match aiOut with
      | none => (index, { st with findings := setEntry st.findings fid entry })
      | some out =>
        (index, { st with findings := setEntry st.findings fid (fixEntry entry out) })
    | .apply aiConfirm aiOut confirm gitOk =>
      applyCommand fid finding.suggestion index st aiConfirm aiOut confirm gitOk

/-! ### Helper lemmas about the string primitives -/

theorem pfx_self_append (p z : List Char) : pfx p (p ++ z) = true := by
  induction p with
  | nil => rfl
  | cons a as ih => simp [pfx, ih]

theorem pfx_mono : ∀ {p q : List Char} (z : List Char),
    pfx p q = true → pfx p (q ++ z) = true := by
  intro p
  induction p with
  | nil => intro q z _; rfl
  | cons a as ih =>
    intro q z h
    cases q with
    | nil => simp [pfx] at h
    | cons b bs =>
      simp only [List.cons_append, pfx, Bool.and_eq_true, decide_eq_true_eq] at h ⊢
      exact ⟨h.1, ih z h.2⟩

theorem pfx_of_pfx_append : ∀ {p q : List Char} (z : List Char),
    pfx p (q ++ z) = true → p.length ≤ q.length → pfx p q = true := by
  intro p
  induction p with
  | nil => intro q z _ _; rfl
  | cons a as ih =>
    intro q z h hlen
    cases q with
    | nil => simp at hlen
    | cons b bs =>
      simp only [List.cons_append, pfx, Bool.and_eq_true, decide_eq_true_eq] at h ⊢
      exact ⟨h.1, ih z h.2 (by simpa using hlen)⟩

theorem pfx_false_append {p q : List Char} (h : pfx p q = false)
    (hlen : p.length ≤ q.length) (z : List Char) : pfx p (q ++ z) = false := by
  cases hpz : pfx p (q ++ z)
  · rfl
  · exact absurd (pfx_of_pfx_append z hpz hlen) (by simp [h])

theorem first_split {α : Type} {p : α → Bool} :
    ∀ {L : List α}, L.any p = true →
      ∃ A b B, L = A ++ b :: B ∧ (∀ x ∈ A, p x = false) ∧ p b = true := by
  intro L h
  induction L with
  | nil => simp at h
  | cons x xs ih =>
    by_cases hx : p x = true
    · exact ⟨[], x, xs, rfl, by simp, hx⟩
    · have hx' : p x = false := by simpa using hx
      have h2 : xs.any p = true := by simpa [hx'] using h
      obtain ⟨A, b, B, h1, h2, h3⟩ := ih h2
      exact ⟨x :: A, b, B, by simp [h1], by simpa [hx'] using h2, h3⟩

/-! ### C4: a diff with exactly one of the two file-header lines is rejected -/

theorem any_replaceFirst {q pr : List Char → Bool} {r : List Char}
    (hr : pr r = false) (hq : ∀ x, q x = true → pr x = false) :
    ∀ L : List (List Char), (Postprocess.replaceFirst q r L).any pr = L.any pr := by
  intro L
  induction L with
  | nil => rfl
  | cons x xs ih =>
    by_cases hx : q x = true
    · simp [Postprocess.replaceFirst, hx, hr, hq x hx]
    · simp [Postprocess.replaceFirst, hx, ih]

theorem dgLine_eq (ph : List Char) :
    Postprocess.dgLine ph = ("diff --git a/").data ++ (ph ++ ((" b/").data ++ ph)) := by
  simp [Postprocess.dgLine, List.append_assoc]

theorem hasPre_old_dgLine (ph : List Char) :
    hasPre ("--- ") (Postprocess.dgLine ph) = false := by
  rw [dgLine_eq]
  exact pfx_false_append (by decide) (by decide) _

theorem hasPre_new_dgLine (ph : List Char) :
    hasPre ("+++ ") (Postprocess.dgLine ph) = false := by
  rw [dgLine_eq]
  exact pfx_false_append (by decide) (by decide) _

theorem hasPre_at_dgLine (ph : List Char) :
    hasPre ("@@") (Postprocess.dgLine ph) = false := by
  rw [dgLine_eq]
  exact pfx_false_append (by decide) (by decide) _

theorem hasPre_dg_dgLine (ph : List Char) :
    hasPre ("diff --git ") (Postprocess.dgLine ph) = true := by
  rw [dgLine_eq]
  exact pfx_mono _ (by decide)

theorem hasPre_dg_old {x : List Char} (hx : hasPre ("diff --git ") x = true) :
    hasPre ("--- ") x = false := by
  cases x with
  | nil => rfl
  | cons c cs =>
    have hc : 'd' = c := by
      simpa [hasPre, pfx, Bool.and_eq_true] using And.left (by simpa [hasPre, pfx] using hx)
    subst hc
    simp [hasPre, pfx]

theorem hasPre_dg_new {x : List Char} (hx : hasPre ("diff --git ") x = true) :
    hasPre ("+++ ") x = false := by
  cases x with
  | nil => rfl
  | cons c cs =>
    have hc : 'd' = c := by
      simpa [hasPre, pfx, Bool.and_eq_true] using And.left (by simpa [hasPre, pfx] using hx)
    subst hc
    simp [hasPre, pfx]

/-- The header flags computed after the `diff --git` adjustment agree with the
flags over the raw lines, for any line predicate that fails on `diff --git `
lines and on the synthesized diff line. -/
theorem any_dgStep {pr : List Char → Bool} (ph : List Char) (L : List (List Char))
    (hdl : pr (Postprocess.dgLine ph) = false)
    (hs : ∀ x : List Char, hasPre ("diff --git ") x = true → pr x = false) :
    (Postprocess.dgStep ph L).any pr = L.any pr := by
  unfold Postprocess.dgStep
  split
  · split
    · exact any_replaceFirst hdl hs L
    · rfl
  · split
    · simp [hdl]
    · rfl

/-- C4: for every diff text containing exactly one of the two file-header lines
(a `--- ` line without a `+++ ` line, or the converse), normalization returns
none, for every target path (including a known one). -/
theorem c4_lone_file_header_rejected (p : String) (f : Option String)
    (h : (Postprocess.normLines p).any (fun l => hasPre ("--- ") l)
       ≠ (Postprocess.normLines p).any (fun l => hasPre ("+++ ") l)) :
    Postprocess.prepare_patch_for_application p f = none := by
  unfold Postprocess.prepare_patch_for_application
  by_cases hcs : stripNLends (mapCR (replCRLF p.data)) = []
  · exfalso
    apply h
    unfold Postprocess.normLines
    rw [hcs]
    rfl
  · simp only [hcs, if_false]
    have hL : splitNL (stripNLends (mapCR (replCRLF p.data))) = Postprocess.normLines p := rfl
    rw [hL]
    set ph : List Char := (match f with
      | some s => Postprocess.sanitize_path s
      | none => []) with hph
    set L := Postprocess.normLines p with hLdef
    unfold Postprocess.prepareLines
    by_cases hq : L.any (fun l => hasPre ("@@") l) = true
    · simp only [hq, not_true, if_false, ite_not]
      have hOld : (Postprocess.dgStep ph L).any (fun l => hasPre ("--- ") l)
          = L.any (fun l => hasPre ("--- ") l) :=
        any_dgStep ph L (hasPre_old_dgLine ph) (fun x hx => hasPre_dg_old hx)
      have hNew : (Postprocess.dgStep ph L).any (fun l => hasPre ("+++ ") l)
          = L.any (fun l => hasPre ("+++ ") l) :=
        any_dgStep ph L (hasPre_new_dgLine ph) (fun x hx => hasPre_dg_new hx)
      rw [hOld, hNew]
      rcases Bool.eq_false_or_eq_true (L.any (fun l => hasPre ("--- ") l)) with h1 | h1 <;>
        rcases Bool.eq_false_or_eq_true (L.any (fun l => hasPre ("+++ ") l)) with h2 | h2 <;>
          simp [h1, h2] at h ⊢
    · simp only [hq]
      simp [show ¬ (L.any (fun l => hasPre ("@@") l) = true) from hq]

/-! ### C3: header synthesis for a headerless hunk -/

theorem any_false_of_mem {α : Type} {pr : α → Bool} :
    ∀ {L : List α}, (∀ l ∈ L, pr l = false) → L.any pr = false := by
  intro L h
  induction L with
  | nil => rfl
  | cons x xs ih => simp [h x (by simp), ih (fun l hl => h l (by simp [hl]))]

theorem rwHeader_id {ph l : List Char} (h2 : hasPre ("--- ") l = false)
    (h3 : hasPre ("+++ ") l = false) : Postprocess.rwHeader ph l = l := by
  simp [Postprocess.rwHeader, h2, h3]

theorem insertHdrs_cons_false {ph l : List Char} {t : List (List Char)}
    (h : hasPre ("@@") l = false) :
    Postprocess.insertHdrs ph (l :: t) = (Postprocess.insertHdrs ph t).map (fun r => l :: r) := by
  simp [Postprocess.insertHdrs, h]

theorem insertHdrs_split {ph b : List Char} {B : List (List Char)} :
    ∀ A : List (List Char), (∀ x ∈ A, hasPre ("@@") x = false) → hasPre ("@@") b = true →
      Postprocess.insertHdrs ph (A ++ b :: B) =
        some (A ++ ((("--- a/").data ++ ph) :: (("+++ b/").data ++ ph) :: b :: B)) := by
  intro A
  induction A with
  | nil =>
    intro _ hb
    simp [Postprocess.insertHdrs, hb]
  | cons x xs ih =>
    intro hA hb
    rw [List.cons_append, insertHdrs_cons_false (hA x (by simp)),
      ih (fun l hl => hA l (by simp [hl])) hb]
    rfl

/-- C3: for every diff text that contains a hunk-header line but no `--- `
line, no `+++ ` line and no `diff --git` line, normalization with the known
target path `src/x.go` returns a diff with exactly `--- a/src/x.go` and
`+++ b/src/x.go` inserted immediately before the first `@@` line (after the
synthesized `diff --git` line); with no target path known it returns none. -/
theorem c3_headerless_hunk_synthesis (p : String)
    (h1 : (Postprocess.normLines p).any (fun l => hasPre ("@@") l) = true)
    (h2 : ∀ l ∈ Postprocess.normLines p, hasPre ("--- ") l = false)
    (h3 : ∀ l ∈ Postprocess.normLines p, hasPre ("+++ ") l = false)
    (h4 : ∀ l ∈ Postprocess.normLines p, hasPre ("diff --git ") l = false) :
    (∃ A b B, Postprocess.normLines p = A ++ b :: B ∧
      (∀ x ∈ A, hasPre ("@@") x = false) ∧ hasPre ("@@") b = true ∧
      Postprocess.prepare_patch_for_application p (some ("src/x.go")) =
        some (String.mk (rstripNL (interNL
          (Postprocess.dgLine (("src/x.go").data) ::
            (A ++ (("--- a/src/x.go").data :: ("+++ b/src/x.go").data :: b :: B)))) ++ ['\n'])))
    ∧ Postprocess.prepare_patch_for_application p none = none := by
  have hcs : stripNLends (mapCR (replCRLF p.data)) ≠ [] := by
    intro hcs
    have : Postprocess.normLines p = [[]] := by
      unfold Postprocess.normLines
      rw [hcs]
      rfl
    rw [this] at h1
    simp [hasPre, pfx] at h1
  have hLdef : splitNL (stripNLends (mapCR (replCRLF p.data))) = Postprocess.normLines p := rfl
  have hAnyDg : (Postprocess.normLines p).any (fun l => hasPre ("diff --git ") l) = false :=
    any_false_of_mem h4
  have hAnyOld : (Postprocess.normLines p).any (fun l => hasPre ("--- ") l) = false :=
    any_false_of_mem h2
  have hAnyNew : (Postprocess.normLines p).any (fun l => hasPre ("+++ ") l) = false :=
    any_false_of_mem h3
  have hMapId : (Postprocess.normLines p).map (Postprocess.rwHeader (("src/x.go").data))
      = Postprocess.normLines p := by
    rw [List.map_congr_left (fun l hl => rwHeader_id (h2 l hl) (h3 l hl))]
    exact List.map_id _
  constructor
  · obtain ⟨A, b, B, hsplit, hA, hb⟩ := first_split h1
    refine ⟨A, b, B, hsplit, hA, hb, ?_⟩
    unfold Postprocess.prepare_patch_for_application
    simp only [hcs, if_false, hLdef]
    have hsan : Postprocess.sanitize_path ("src/x.go") = ("src/x.go").data := by decide
    simp only [hsan]
    unfold Postprocess.prepareLines
    simp only [h1, not_true, if_false, ite_not]
    have hdg : Postprocess.dgStep (("src/x.go").data) (Postprocess.normLines p)
        = Postprocess.dgLine (("src/x.go").data) :: Postprocess.normLines p := by
      unfold Postprocess.dgStep
      simp [hAnyDg]
    rw [hdg]
    simp only [List.any_cons, hasPre_old_dgLine, hasPre_new_dgLine, Bool.false_or,
      hAnyOld, hAnyNew, List.map_cons,
      rwHeader_id (hasPre_old_dgLine _) (hasPre_new_dgLine _), hMapId]
    simp only [Bool.false_eq_true, and_self, not_false_iff, false_and, and_false, or_self,
      if_false, if_true, not_false_eq_true]
    rw [hsplit, insertHdrs_cons_false (hasPre_at_dgLine _), insertHdrs_split A hA hb]
    simp [hasPre_dg_dgLine]
  · unfold Postprocess.prepare_patch_for_application
    simp only [hcs, if_false, hLdef]
    unfold Postprocess.prepareLines
    simp only [h1, not_true, if_false, ite_not]
    have hdg : Postprocess.dgStep ([] : List Char) (Postprocess.normLines p)
        = Postprocess.normLines p := by
      unfold Postprocess.dgStep
      simp [hAnyDg]
    rw [hdg]
    simp [hAnyOld, hAnyNew]

/-! ### C6: reconciliation after a report-fingerprint change -/

theorem getA_mem {α : Type} {k : String} {v : α} :
    ∀ {l : List (String × α)}, getA k l = some v → (k, v) ∈ l := by
  intro l
  induction l with
  | nil => intro h; simp [getA] at h
  | cons kv t ih =>
    intro h
    by_cases hk : kv.1 = k
    · rw [getA, if_pos hk] at h
      have : kv = (k, v) := by
        cases kv
        simp at hk h
        simp [hk, h]
      simp [this]
    · rw [getA, if_neg hk] at h
      exact List.mem_cons_of_mem _ (ih h)

theorem getA_append {α : Type} (k : String) (l₁ l₂ : List (String × α)) :
    getA k (l₁ ++ l₂) =
      match getA k l₁ with
      | some v => some v
      | none => getA k l₂ := by
  induction l₁ with
  | nil => simp [getA]
  | cons kv t ih =>
    by_cases hk : kv.1 = k
    · simp [getA, hk]
    · simp [getA, hk, ih]

/-- The `setdefault` fold of `ensure_state_for_findings`, characterized:
starting from an all-fresh accumulator, every identifier of the finding list is
bound to a fresh entry, and nothing else is bound. -/
theorem ensure_fold_lookup :
    ∀ (fs : List Finding) (acc : List (String × TriageEntry)),
      (∀ kv ∈ acc, kv.2 = freshEntry) → ∀ id,
      getA id (fs.foldl (fun acc f =>
          if (getA f.identifier acc).isSome then acc
          else acc ++ [(f.identifier, freshEntry)]) acc)
        = if ((getA id acc).isSome || elemS id (fs.map (fun f => f.identifier))) then
            some freshEntry
          else none := by
  intro fs
  induction fs with
  | nil =>
    intro acc hacc id
    simp only [List.foldl_nil, List.map_nil, elemS, Bool.or_false]
    cases h : getA id acc with
    | none => simp [h]
    | some v =>
      have hv : v = freshEntry := hacc _ (getA_mem h)
      simp [h, hv]
  | cons f fs ih =>
    intro acc hacc id
    simp only [List.foldl_cons, List.map_cons]
    by_cases hf : (getA f.identifier acc).isSome = true
    · simp only [hf, if_true]
      rw [ih acc hacc id]
      by_cases hid : id = f.identifier
      · subst hid
        simp [elemS, hf]
      · simp [elemS, hid]
    · have hf0 : (getA f.identifier acc).isSome = false := by
        cases h0 : getA f.identifier acc
        · rfl
        · rw [h0] at hf
          simp at hf
      simp only [hf0, Bool.false_eq_true, if_false]
      have hfresh : ∀ kv ∈ acc ++ [(f.identifier, freshEntry)], kv.2 = freshEntry := by
        intro kv hkv
        rcases List.mem_append.1 hkv with h | h
        · exact hacc _ h
        · simp at h
          rw [h]
      rw [ih _ hfresh id, getA_append]
      cases h : getA id acc with
      | some v => simp [elemS]
      | none =>
        by_cases hid : f.identifier = id
        · simp [getA, hid, elemS]
        · have hid' : ¬ (id = f.identifier) := fun hh => hid hh.symm
          simp [getA, hid, elemS, hid']

/-- C6: when the stored report fingerprint differs from the fresh one,
reconciliation resets: cursor 0, the new fingerprint, and an entry map binding
exactly the current finding identifiers, each to a fresh pending entry — also
for identifiers that existed in the prior state. -/
theorem c6_stale_fingerprint_resets (st : TriageState) (h : String) (fs : List Finding)
    (hne : st.review_hash ≠ some h) :
    (ensure_state_for_findings st h fs).current_index = some 0 ∧
    (ensure_state_for_findings st h fs).review_hash = some h ∧
    (∀ id, getA id (ensure_state_for_findings st h fs).findings =
      if elemS id (fs.map (fun f => f.identifier)) then some freshEntry else none) := by
  unfold ensure_state_for_findings
  simp only [ne_eq, hne, not_false_iff, if_true, List.filter_nil, Option.getD_some]
  refine ⟨trivial, trivial, ?_⟩
  intro id
  rw [ensure_fold_lookup fs [] (by simp) id]
  simp [getA]

/-! ### C7: the loop's initial cursor -/

/-- Amended C7: the loop fast-forwards to the first pending finding only when
the persisted cursor is at or beyond the end of the finding list; a persisted
cursor inside the list is kept verbatim even when it points at an acknowledged
or fixed finding. -/
theorem c7_initial_cursor_amended (findings : List Finding) (st : TriageState) (c : Nat)
    (hc : st.current_index = some c) :
    (findings.length ≤ c → initial_index findings st = find_first_pending_index findings st) ∧
    (c < findings.length → initial_index findings st = c) := by
  unfold initial_index
  rw [hc]
  simp only [Option.getD_some]
  constructor
  · intro hlen
    rw [min_eq_right hlen, if_pos le_rfl]
  · intro hlt
    rw [min_eq_left (le_of_lt hlt), if_neg (Nat.not_le.2 hlt)]

/-- C7 counterexample: with two findings, the first acknowledged and the second
pending, and persisted cursor 0, the loop starts at index 0 (the resolved
finding), not at the first pending index 1. -/
theorem c7_counterexample :
    (let f0 : Finding := ⟨"ida", "", "", "", "", "", "", "", ""⟩
     let f1 : Finding := ⟨"idb", "", "", "", "", "", "", "", ""⟩
     let st : TriageState :=
       ⟨some ("rh"), [(("ida" : String), { status := "acknowledged" })], some 0⟩
     statusOf st ("ida") = "acknowledged" ∧
     find_first_pending_index [f0, f1] st = 1 ∧
     initial_index [f0, f1] st = 0 ∧ (0 : Nat) ≠ 1) := by
  decide

theorem c7_initial_cursor_witness :
    (let f0 : Finding := ⟨"ida", "", "", "", "", "", "", "", ""⟩
     let st : TriageState :=
       ⟨some ("rh"), [(("ida" : String), { status := "acknowledged" })], some 5⟩
     initial_index [f0] st = find_first_pending_index [f0] st) := by
  have h := (c7_initial_cursor_amended
    [⟨"ida", "", "", "", "", "", "", "", ""⟩]
    ⟨some ("rh"), [(("ida" : String), { status := "acknowledged" })], some 5⟩ 5 rfl).1
  exact h (by decide)

/-! ### C2: grade matching is not case-insensitive in the code -/

/-- C2 evidence: the block regex captures grades with `[A-Z]+`, so a block
graded `bad` or `Bad` is not matched at all (the `.strip().upper()`
normalization never sees it), while the identical block graded `BAD` is
retained.  The spec's case-insensitivity claim is the intended behaviour
(the dead `.upper()` call and the case-insensitive sibling parser in
`interactive_review_helper.py` both witness that intent), but the code drops
non-uppercase grades. -/
theorem c2_lowercase_grade_dropped :
    parse_bad_findings
        ("## Change-by-Change Review\n### Assessment of the change: bad\n**Title**: T\n") = []
    ∧ parse_bad_findings
        ("## Change-by-Change Review\n### Assessment of the change: Bad\n**Title**: T\n") = []
    ∧ (parse_bad_findings
        ("## Change-by-Change Review\n### Assessment of the change: BAD\n**Title**: T\n")).length
      = 1 := by
  refine ⟨by decide, by decide, ?_⟩
  decide

/-! ### Witnesses for C3, C4, C6 -/

theorem c3_witness :
    (∃ A b B,
      Postprocess.normLines ("@@ -1 +1 @@\n-a\n+b") = A ++ b :: B ∧
      (∀ x ∈ A, hasPre ("@@") x = false) ∧ hasPre ("@@") b = true ∧
      Postprocess.prepare_patch_for_application ("@@ -1 +1 @@\n-a\n+b") (some ("src/x.go")) =
        some (String.mk (rstripNL (interNL
          (Postprocess.dgLine (("src/x.go").data) ::
            (A ++ (("--- a/src/x.go").data :: ("+++ b/src/x.go").data :: b :: B)))) ++ ['\n'])))
    ∧ Postprocess.prepare_patch_for_application ("@@ -1 +1 @@\n-a\n+b") none = none :=
  c3_headerless_hunk_synthesis ("@@ -1 +1 @@\n-a\n+b")
    (by decide) (by decide) (by decide) (by decide)

theorem c4_witness :
    Postprocess.prepare_patch_for_application ("--- a/x\n@@ -1 +1 @@\nz") (some ("t")) = none :=
  c4_lone_file_header_rejected ("--- a/x\n@@ -1 +1 @@\nz") (some ("t")) (by decide)

theorem c6_witness :
    (ensure_state_for_findings
        ⟨some ("old"), [(("idx" : String), { status := "fixed" })], some 3⟩
        ("new") [⟨"idx", "", "", "", "", "", "", "", ""⟩]).current_index = some 0 ∧
    getA ("idx")
      (ensure_state_for_findings
        ⟨some ("old"), [(("idx" : String), { status := "fixed" })], some 3⟩
        ("new") [⟨"idx", "", "", "", "", "", "", "", ""⟩]).findings = some freshEntry := by
  have h := c6_stale_fingerprint_resets
    ⟨some ("old"), [(("idx" : String), { status := "fixed" })], some 3⟩
    ("new") [⟨"idx", "", "", "", "", "", "", "", ""⟩] (by decide)
  refine ⟨h.1, ?_⟩
  rw [h.2.2 ("idx")]
  decide

/-! ### C8: status transitions inside one interactive session -/

theorem getA_map_upd_ne {fs : List (String × TriageEntry)} {id k : String}
    {e : TriageEntry} (hk : ¬ id = k) :
    getA k (fs.map (fun kv => if kv.1 = id then (id, e) else kv)) = getA k fs := by
  induction fs with
  | nil => rfl
  | cons kv t ih =>
    by_cases h1 : kv.1 = id
    · simp [getA, h1, hk, ih]
    · simp [getA, h1, ih]

theorem getA_map_upd_self {fs : List (String × TriageEntry)} {id : String}
    {e : TriageEntry} (hp : (getA id fs).isSome = true) :
    getA id (fs.map (fun kv => if kv.1 = id then (id, e) else kv)) = some e := by
  induction fs with
  | nil => simp [getA] at hp
  | cons kv t ih =>
    by_cases h1 : kv.1 = id
    · simp [getA, h1]
    · rw [getA, if_neg h1] at hp
      simp [getA, h1, ih hp]

theorem getA_setEntry (fs : List (String × TriageEntry)) (id k : String) (e : TriageEntry) :
    getA k (setEntry fs id e) = if id = k then some e else getA k fs := by
  unfold setEntry
  by_cases hp : (getA id fs).isSome = true
  · rw [if_pos hp]
    by_cases hk : id = k
    · subst hk
      rw [if_pos rfl, getA_map_upd_self hp]
    · rw [if_neg hk, getA_map_upd_ne hk]
  · rw [if_neg hp, getA_append]
    have hnone : getA id fs = none := by
      cases h0 : getA id fs
      · rfl
      · rw [h0] at hp
        simp at hp
    by_cases hk : id = k
    · subst hk
      rw [hnone]
      simp [getA]
    · by_cases hsome : (getA k fs).isSome = true
      · cases h0 : getA k fs with
        | none => rw [h0] at hsome; simp at hsome
        | some v => simp [h0, hk]
      · cases h0 : getA k fs with
        | some v => rw [h0] at hsome; simp at hsome
        | none => simp [h0, getA, hk]

theorem statusOf_mk (rh : Option String) (fs : List (String × TriageEntry))
    (ci : Option Nat) (id : String) :
    statusOf ⟨rh, fs, ci⟩ id = ((getA id fs).getD freshEntry).status := rfl

theorem statusOf_setEntry (rh : Option String) (fs : List (String × TriageEntry))
    (ci : Option Nat) (fid id : String) (e : TriageEntry) :
    statusOf ⟨rh, setEntry fs fid e, ci⟩ id =
      if fid = id then e.status else ((getA id fs).getD freshEntry).status := by
  rw [statusOf_mk, getA_setEntry]
  by_cases h : fid = id <;> simp [h]

theorem applyResolveSugg_status (e1 : TriageEntry) (w1 : Bool) (s1 sugg : String) :
    (applyResolveSugg e1 w1 s1 sugg).1.status = e1.status := by
  unfold applyResolveSugg
  split
  · split
    · split <;> rfl
    · rfl
  · rfl

theorem applyResolve_status (e : TriageEntry) (s : String) :
    (applyResolve e s).1.status = e.status := by
  unfold applyResolve
  split
  · split
    · rfl
    · rw [applyResolveSugg_status]
  · rw [applyResolveSugg_status]

theorem fixEntry_status (e : TriageEntry) (out : String) :
    (fixEntry e out).status = e.status := by
  unfold fixEntry
  split <;> rfl

theorem statusOf_confirmPhase (fid : String) (index : Nat) (st : TriageState)
    (e : TriageEntry) (patch source : String) (confirm gitOk : Bool) (id : String) :
    statusOf (confirmPhase fid index st e patch source confirm gitOk).2 id = statusOf st id ∨
    statusOf (confirmPhase fid index st e patch source confirm gitOk).2 id = "fixed" := by
  unfold confirmPhase
  split
  · left; rfl
  · split
    · by_cases hid : fid = id
      · right
        show statusOf ⟨st.review_hash, setEntry st.findings fid _, _⟩ id = _
        rw [statusOf_setEntry, if_pos hid]
      · left
        show statusOf ⟨st.review_hash, setEntry st.findings fid _, _⟩ id = _
        rw [statusOf_setEntry, if_neg hid]
        rfl
    · left; rfl

theorem statusOf_aiPhase (fid : String) (index : Nat) (st1 : TriageState)
    (e1 : TriageEntry) (aiOut : Option String) (confirm gitOk : Bool) (id : String) :
    statusOf (aiPhase fid index st1 e1 aiOut confirm gitOk).2 id = statusOf st1 id ∨
    (fid = id ∧ statusOf (aiPhase fid index st1 e1 aiOut confirm gitOk).2 id = e1.status) ∨
    statusOf (aiPhase fid index st1 e1 aiOut confirm gitOk).2 id = "fixed" := by
  cases aiOut with
  | none => left; rfl
  | some out =>
    by_cases hid : fid = id
    · cases hpat : extract_patch out with
      | none =>
        right; left
        refine ⟨hid, ?_⟩
        simp only [aiPhase, hpat]
        rw [statusOf_setEntry, if_pos hid]
      | some ap =>
        cases hprep : Interactive.prepare_patch_for_application ap with
        | none =>
          right; left
          refine ⟨hid, ?_⟩
          simp only [aiPhase, hpat, hprep]
          rw [statusOf_setEntry, if_pos hid]
        | some pap =>
          simp only [aiPhase, hpat, hprep]
          rcases statusOf_confirmPhase fid index
              ⟨st1.review_hash, setEntry st1.findings fid
                { e1 with last_ai_output := out, last_patch := pap,
                          last_patch_source := "ai" }, st1.current_index⟩
              { e1 with last_ai_output := out, last_patch := pap, last_patch_source := "ai" }
              pap ("ai") confirm gitOk id with h | h
          · right; left
            refine ⟨hid, ?_⟩
            rw [h, statusOf_setEntry, if_pos hid]
          · right; right
            exact h
    · cases hpat : extract_patch out with
      | none =>
        left
        simp only [aiPhase, hpat]
        rw [statusOf_setEntry, if_neg hid]
        rfl
      | some ap =>
        cases hprep : Interactive.prepare_patch_for_application ap with
        | none =>
          left
          simp only [aiPhase, hpat, hprep]
          rw [statusOf_setEntry, if_neg hid]
          rfl
        | some pap =>
          simp only [aiPhase, hpat, hprep]
          rcases statusOf_confirmPhase fid index
              ⟨st1.review_hash, setEntry st1.findings fid
                { e1 with last_ai_output := out, last_patch := pap,
                          last_patch_source := "ai" }, st1.current_index⟩
              { e1 with last_ai_output := out, last_patch := pap, last_patch_source := "ai" }
              pap ("ai") confirm gitOk id with h | h
          · left
            rw [h, statusOf_setEntry, if_neg hid]
            rfl
          · right; right
            exact h

/-- The entire `apply` command either leaves every status unchanged or sets
the current finding's status to `fixed`: the intermediate cache writes never
touch the `status` field. -/
theorem statusOf_applyCommand (fid sugg : String) (index : Nat) (st : TriageState)
    (aiConfirm : Bool) (aiOut : Option String) (confirm gitOk : Bool) (id : String) :
    statusOf (applyCommand fid sugg index st aiConfirm aiOut confirm gitOk).2 id
      = statusOf st id ∨
    statusOf (applyCommand fid sugg index st aiConfirm aiOut confirm gitOk).2 id
      = "fixed" := by
  rcases hres : applyResolve (entryOf st fid) sugg with ⟨e1, w1, p1, s1⟩
  have he1 : e1.status = statusOf st fid := by
    have h := applyResolve_status (entryOf st fid) sugg
    rw [hres] at h
    exact h
  simp only [applyCommand, hres]
  cases w1 with
  | true =>
    have hst1 : statusOf
        ⟨st.review_hash, setEntry st.findings fid e1, st.current_index⟩ id
        = statusOf st id := by
      rw [statusOf_setEntry]
      by_cases hid : fid = id
      · rw [if_pos hid, he1, hid]
      · rw [if_neg hid]
        rfl
    simp only [if_true]
    by_cases hp1 : p1 = ""
    · subst hp1
      simp only [eq_self_iff_true, if_true]
      by_cases hai : aiConfirm = true
      · simp only [hai, not_true, if_false, if_neg]
        rcases statusOf_aiPhase fid index
            ⟨st.review_hash, setEntry st.findings fid e1, st.current_index⟩ e1
            aiOut confirm gitOk id with h | ⟨hid, h⟩ | h
        · left; rw [h, hst1]
        · left; rw [h, he1, hid]
        · right; exact h
      · have hai' : aiConfirm = false := by
          cases aiConfirm
          · rfl
          · exact absurd rfl hai
        subst hai'
        simp only [Bool.false_eq_true, not_false_iff, if_true]
        left
        exact hst1
    · rw [if_neg hp1]
      rcases statusOf_confirmPhase fid index
          ⟨st.review_hash, setEntry st.findings fid e1, st.current_index⟩ e1 p1 s1
          confirm gitOk id with h | h
      · left; rw [h, hst1]
      · right; exact h
  | false =>
    simp only [Bool.false_eq_true, if_false]
    by_cases hp1 : p1 = ""
    · subst hp1
      simp only [eq_self_iff_true, if_true]
      by_cases hai : aiConfirm = true
      · simp only [hai, not_true, if_false, if_neg]
        rcases statusOf_aiPhase fid index st e1 aiOut confirm gitOk id
          with h | ⟨hid, h⟩ | h
        · left; rw [h]
        · left; rw [h, he1, hid]
        · right; exact h
      · have hai' : aiConfirm = false := by
          cases aiConfirm
          · rfl
          · exact absurd rfl hai
        subst hai'
        simp only [Bool.false_eq_true, not_false_iff, if_true]
        left
        trivial
    · rw [if_neg hp1]
      rcases statusOf_confirmPhase fid index st e1 p1 s1 confirm gitOk id with h | h
      · left; rw [h]
      · right; exact h

/-- Amended C8: a single command transition either leaves a finding's status
unchanged or sets it to `acknowledged` or `fixed`; no command ever writes
`pending` back.  (The original claim fails: `next` downgrades a `fixed`
finding to `acknowledged`, see the counterexample.) -/
theorem c8_status_writes_amended (findings : List Finding) (cmd : Cmd) (index : Nat)
    (st : TriageState) (id : String) :
    statusOf (interactive_step findings cmd index st).2 id = statusOf st id ∨
    statusOf (interactive_step findings cmd index st).2 id = "acknowledged" ∨
    statusOf (interactive_step findings cmd index st).2 id = "fixed" := by
  unfold interactive_step
  cases hget : findings.get? index with
  | none => left; rfl
  | some finding =>
    cases cmd with
    | help => left; rfl
    | quit => left; rfl
    | openEditor => left; rfl
    | unknown => left; rfl
    | prev => left; rfl
    | next =>
      by_cases hid : finding.identifier = id
      · right; left
        show statusOf ⟨st.review_hash, setEntry st.findings finding.identifier _, _⟩ id = _
        rw [statusOf_setEntry, if_pos hid]
      · left
        show statusOf ⟨st.review_hash, setEntry st.findings finding.identifier _, _⟩ id = _
        rw [statusOf_setEntry, if_neg hid]
        rfl
    | fix aiOut =>
      have hentry : (entryOf st finding.identifier).status = statusOf st finding.identifier :=
        rfl
      cases aiOut with
      | none =>
        left
        by_cases hid : finding.identifier = id
        · show statusOf ⟨st.review_hash, setEntry st.findings finding.identifier _, _⟩ id = _
          rw [statusOf_setEntry, if_pos hid, hentry, hid]
        · show statusOf ⟨st.review_hash, setEntry st.findings finding.identifier _, _⟩ id = _
          rw [statusOf_setEntry, if_neg hid]
          rfl
      | some out =>
        left
        by_cases hid : finding.identifier = id
        · show statusOf ⟨st.review_hash, setEntry st.findings finding.identifier _, _⟩ id = _
          rw [statusOf_setEntry, if_pos hid, fixEntry_status, hentry, hid]
        · show statusOf ⟨st.review_hash, setEntry st.findings finding.identifier _, _⟩ id = _
          rw [statusOf_setEntry, if_neg hid]
          rfl
    | apply aiConfirm aiOut confirm gitOk =>
      rcases statusOf_applyCommand finding.identifier finding.suggestion index st
          aiConfirm aiOut confirm gitOk id with h | h
      · left; exact h
      · right; right; exact h

/-- C8 counterexample: a finding whose status is `fixed` is demoted to
`acknowledged` by the `next` command (e.g. after `prev` moved the cursor back
onto it), so statuses do not move monotonically. -/
theorem c8_counterexample :
    (let f0 : Finding := ⟨"ida", "", "", "", "", "", "", "", ""⟩
     let st : TriageState := ⟨some ("rh"), [(("ida" : String), { status := "fixed" })], some 0⟩
     statusOf st ("ida") = "fixed" ∧
     statusOf (interactive_step [f0] Cmd.next 0 st).2 ("ida") = "acknowledged") := by
  decide

/-! ### C1: the apply command's suggestion path -/

/-- C1 counterexample: with no cached patch, a suggestion whose fenced diff has
a hunk header but no `--- `/`+++ ` file headers, and a known finding file, the
`apply` command does **not** resolve the diff via the suggestion path: the
interactive validator (which, unlike the postprocess normalizer, synthesizes
nothing) rejects it, no `"suggestion"`-provenance patch is stored, and the
command falls through to the AI prompt (declined here), leaving the state
unchanged — whereas the postprocess normalizer would have synthesized headers
for `lib/foo.go` exactly as the claim expects. -/
theorem c1_counterexample :
    (let sugg : String := "```diff\n@@ -1,1 +1,1 @@\n-a\n+b\n```"
     let f0 : Finding := ⟨"ida", "T", "lib/foo.go", "10-12", sugg, "rb", "", "", ""⟩
     let st : TriageState := ⟨some ("rh"), [(("ida" : String), freshEntry)], some 0⟩
     extract_patch sugg = some ("@@ -1,1 +1,1 @@\n-a\n+b\n") ∧
     Interactive.prepare_patch_for_application ("@@ -1,1 +1,1 @@\n-a\n+b\n") = none ∧
     interactive_step [f0] (Cmd.apply false none false false) 0 st = (0, st) ∧
     Postprocess.prepare_patch_for_application ("@@ -1,1 +1,1 @@\n-a\n+b\n")
         (some ("lib/foo.go")) =
       some ("diff --git a/lib/foo.go b/lib/foo.go\n--- a/lib/foo.go\n+++ b/lib/foo.go\n@@ -1,1 +1,1 @@\n-a\n+b\n")) := by
  decide

/-- Amended C1: when no usable cached patch exists and the suggestion's
embedded diff is rejected by the interactive validator (as every diff without
explicit `--- `/`+++ ` headers is), the `apply` command's resolution returns no
patch at all — the suggestion path stores nothing and the command falls
through to offering an on-demand AI fix.  The finding's file plays no role:
the interactive validator takes no target path and synthesizes no headers. -/
theorem c1_suggestion_path_amended (entry : TriageEntry) (sugg sp : String)
    (h0 : entry.last_patch = "")
    (h1 : extract_patch sugg = some sp)
    (h2 : Interactive.prepare_patch_for_application sp = none) :
    applyResolve entry sugg = (entry, false, "", entry.last_patch_source) := by
  have hsugg : ¬ (sugg = "") := by
    intro hs
    rw [hs] at h1
    have hnone : extract_patch ("") = none := rfl
    rw [hnone] at h1
    exact Option.noConfusion h1
  unfold applyResolve
  rw [if_neg (by simp [h0])]
  unfold applyResolveSugg
  rw [if_pos hsugg, h1]
  simp only [h2]

theorem c1_witness :
    applyResolve freshEntry ("```diff\n@@ -1,1 +1,1 @@\n-a\n+b\n```")
      = (freshEntry, false, "", "") :=
  c1_suggestion_path_amended freshEntry ("```diff\n@@ -1,1 +1,1 @@\n-a\n+b\n```")
    ("@@ -1,1 +1,1 @@\n-a\n+b\n") rfl (by decide) (by decide)

/-! ### C9: diff extraction strips the block interior -/

/-- C9 counterexample: the interior of the first fenced block of this text is
`" @@ x\n"`, but `extract_patch` returns `"@@ x\n"` — the interior is
`.strip()`ped, not returned verbatim. -/
theorem c9_counterexample :
    fenceSearch (("```diff\n @@ x\n```").data) = some ((" @@ x\n").data) ∧
    extract_patch ("```diff\n @@ x\n```") = some ("@@ x\n") ∧
    (" @@ x\n" : String) ≠ "@@ x\n" := by
  decide

theorem fenceAt_none {c : Char} (hc : c ≠ '`') (X : List Char) :
    fenceAt (c :: X) = none := by
  unfold fenceAt
  rw [if_neg]
  intro h
  have : '`' = c := by simpa [pfx, Bool.and_eq_true] using And.left (by simpa [pfx] using h)
  exact hc this.symm

theorem fenceSearch_cons (c : Char) (cs : List Char) :
    fenceSearch (c :: cs) =
      match fenceAt (c :: cs) with
      | some i => some i
      | none => fenceSearch cs := rfl

theorem fenceSearch_skip : ∀ {pre : List Char} (rest : List Char),
    (∀ c ∈ pre, c ≠ '`') → fenceSearch (pre ++ rest) = fenceSearch rest := by
  intro pre
  induction pre with
  | nil => intro rest _; rfl
  | cons c pre ih =>
    intro rest h
    show fenceSearch (c :: (pre ++ rest)) = _
    rw [fenceSearch_cons, fenceAt_none (h c (by simp)) _]
    exact ih rest (fun x hx => h x (by simp [hx]))

theorem pfx_false_head {a c : Char} (h : ¬ a = c) (as bs : List Char) :
    pfx (a :: as) (c :: bs) = false := by
  simp [pfx, h]

theorem findClose_through : ∀ {inner : List Char} (post : List Char),
    (∀ c ∈ inner, c ≠ '`') →
    findClose (inner ++ (("```").data ++ post)) = some inner := by
  intro inner
  induction inner with
  | nil =>
    intro post _
    have hx : ([] : List Char) ++ (("```").data ++ post) = '`' :: '`' :: '`' :: post := rfl
    rw [hx]
    unfold findClose
    rw [if_pos (show pfx (("```").data) ('`' :: '`' :: '`' :: post) = true from
      pfx_self_append (("```").data) post)]
  | cons c inner ih =>
    intro post h
    show findClose (c :: (inner ++ _)) = _
    unfold findClose
    rw [if_neg, ih post (fun x hx => h x (by simp [hx]))]
    · rfl
    · intro hp
      have : '`' = c := by
        simpa [pfx, Bool.and_eq_true] using And.left (by simpa [pfx] using hp)
      exact h c (by simp) this.symm

theorem tryTag_self (tag : String) (inner post : List Char)
    (hin : ∀ c ∈ inner, c ≠ '`') :
    tryTag tag (tag.data ++ ('\n' :: (inner ++ (("```").data ++ post)))) = some inner := by
  unfold tryTag
  have hsh : tag.data ++ ('\n' :: (inner ++ (("```").data ++ post)))
      = (tag.data ++ ['\n']) ++ (inner ++ (("```").data ++ post)) := by
    simp
  rw [hsh, if_pos (pfx_self_append _ _)]
  have hlen : tag.data.length + 1 = (tag.data ++ ['\n']).length := by simp
  rw [hlen, List.drop_left]
  exact findClose_through post hin

theorem tryTag_none_head (tag : String) (a c : Char) (ts Z : List Char)
    (htag : tag.data ++ ['\n'] = a :: ts) (hac : ¬ a = c) :
    tryTag tag (c :: Z) = none := by
  unfold tryTag
  rw [if_neg]
  intro h
  rw [htag, pfx_false_head hac ts Z] at h
  exact Bool.noConfusion h

theorem tryTag_none_ne (tag actual : String) {a c : Char} {ts as : List Char} (W : List Char)
    (htag : tag.data ++ ['\n'] = a :: ts) (hact : actual.data = c :: as) (hac : ¬ a = c) :
    tryTag tag (actual.data ++ ('\n' :: W)) = none := by
  rw [hact, List.cons_append]
  exact tryTag_none_head tag a c ts _ htag hac

theorem tryTag_none_empty (tag : String) {a : Char} {ts : List Char} (W : List Char)
    (htag : tag.data ++ ['\n'] = a :: ts) (han : ¬ a = '\n') :
    tryTag tag (("").data ++ ('\n' :: W)) = none := by
  rw [show (("").data ++ ('\n' :: W) : List Char) = '\n' :: W from rfl]
  exact tryTag_none_head tag a '\n' ts W htag han

/-- Amended C9: `extract_patch` returns the interior of the first fenced
`diff`/`patch`/`suggestion`/untagged block with surrounding whitespace
stripped and exactly one trailing newline appended (not the interior
verbatim); and on text containing no backtick at all it returns none. -/
theorem c9_extract_amended :
    (∀ (pre inner post : List Char) (tag : String),
      (tag = "diff" ∨ tag = "patch" ∨ tag = "suggestion" ∨ tag = "") →
      (∀ c ∈ pre, c ≠ '`') → (∀ c ∈ inner, c ≠ '`') →
      extract_patch (String.mk (pre ++ (("```").data ++ (tag.data ++
          ('\n' :: (inner ++ (("```").data ++ post))))))) =
        some (String.mk
          (if (pyStrip inner).getLast? = some '\n' then pyStrip inner
           else pyStrip inner ++ ['\n']))) ∧
    (∀ t : String, (∀ c ∈ t.data, c ≠ '`') → extract_patch t = none) := by
  constructor
  · intro pre inner post tag htag hpre hin
    have hsearch : fenceSearch (pre ++ (("```").data ++ (tag.data ++
        ('\n' :: (inner ++ (("```").data ++ post)))))) = some inner := by
      rw [fenceSearch_skip _ hpre]
      have hne : (("```").data ++ (tag.data ++ ('\n' :: (inner ++ (("```").data ++ post)))))
          = '`' :: ('`' :: '`' :: (tag.data ++ ('\n' :: (inner ++ (("```").data ++ post))))) :=
        rfl
      rw [hne, fenceSearch_cons]
      have hAt : fenceAt ('`' :: ('`' :: '`' :: (tag.data ++
          ('\n' :: (inner ++ (("```").data ++ post)))))) = some inner := by
        unfold fenceAt
        rw [if_pos (show pfx (("```").data) ('`' :: ('`' :: '`' :: (tag.data ++
            ('\n' :: (inner ++ (("```").data ++ post)))))) = true from
          pfx_self_append (("```").data) _)]
        rw [show ('`' :: ('`' :: '`' :: (tag.data ++
            ('\n' :: (inner ++ (("```").data ++ post)))))).drop 3
            = tag.data ++ ('\n' :: (inner ++ (("```").data ++ post))) from rfl]
        rcases htag with h | h | h | h <;> subst h
        · rw [tryTag_self ("diff") inner post hin]
          rfl
        · rw [tryTag_none_ne ("diff") ("patch") _ rfl rfl (by decide),
            tryTag_self ("patch") inner post hin]
          rfl
        · rw [tryTag_none_ne ("diff") ("suggestion") _ rfl rfl (by decide),
            tryTag_none_ne ("patch") ("suggestion") _ rfl rfl (by decide),
            tryTag_self ("suggestion") inner post hin]
          rfl
        · rw [tryTag_none_empty ("diff") _ rfl (by decide),
            tryTag_none_empty ("patch") _ rfl (by decide),
            tryTag_none_empty ("suggestion") _ rfl (by decide),
            tryTag_self ("") inner post hin]
          rfl
      rw [hAt]
    unfold extract_patch
    rw [show (String.mk (pre ++ (("```").data ++ (tag.data ++
        ('\n' :: (inner ++ (("```").data ++ post))))))).data
        = pre ++ (("```").data ++ (tag.data ++ ('\n' :: (inner ++ (("```").data ++ post)))))
        from rfl]
    rw [hsearch]
    rfl
  · intro t ht
    unfold extract_patch
    have : fenceSearch t.data = none := by
      have h0 : fenceSearch t.data = fenceSearch (t.data ++ []) := by simp
      rw [h0, fenceSearch_skip [] ht]
      rfl
    rw [this]
    rfl

/-! ### C10: idempotence of diff normalization -/

theorem c10_counterexample :
    Postprocess.prepare_patch_for_application ("@@ -1 +1 @@\n-x\n+y") (some ("a\nb"))
      = some ("diff --git a/a\nb b/a\nb\n--- a/a\nb\n+++ b/a\nb\n@@ -1 +1 @@\n-x\n+y\n")
    ∧ Postprocess.prepare_patch_for_application
        ("diff --git a/a\nb b/a\nb\n--- a/a\nb\n+++ b/a\nb\n@@ -1 +1 @@\n-x\n+y\n")
        (some ("a\nb"))
      ≠ some ("diff --git a/a\nb b/a\nb\n--- a/a\nb\n+++ b/a\nb\n@@ -1 +1 @@\n-x\n+y\n") := by
  decide

theorem splitNL_ne_nil : ∀ cs : List Char, splitNL cs ≠ [] := by
  intro cs
  induction cs with
  | nil => simp [splitNL]
  | cons c t ih =>
    unfold splitNL
    split
    · simp
    · cases h : splitNL t <;> simp

theorem noNL_splitNL : ∀ (cs : List Char) (l : List Char), l ∈ splitNL cs →
    ∀ c ∈ l, c ≠ '\n' := by
  intro cs
  induction cs with
  | nil =>
    intro l hl c hc
    simp [splitNL] at hl
    subst hl
    simp at hc
  | cons x t ih =>
    intro l hl c hc
    unfold splitNL at hl
    by_cases hx : x = '\n'
    · rw [if_pos hx] at hl
      rcases List.mem_cons.1 hl with h | h
      · subst h; simp at hc
      · exact ih l h c hc
    · rw [if_neg hx] at hl
      cases hsp : splitNL t with
      | nil => exact absurd hsp (splitNL_ne_nil t)
      | cons a as =>
        rw [hsp] at hl
        rcases List.mem_cons.1 hl with h | h
        · subst h
          rcases List.mem_cons.1 hc with h2 | h2
          · subst h2; exact hx
          · exact ih a (by rw [hsp]; simp) c h2
        · exact ih l (by rw [hsp]; simp [h]) c hc

theorem mem_splitNL_mem : ∀ (cs : List Char) (l : List Char), l ∈ splitNL cs →
    ∀ c ∈ l, c ∈ cs := by
  intro cs
  induction cs with
  | nil =>
    intro l hl c hc
    simp [splitNL] at hl
    subst hl
    simp at hc
  | cons x t ih =>
    intro l hl c hc
    unfold splitNL at hl
    by_cases hx : x = '\n'
    · rw [if_pos hx] at hl
      rcases List.mem_cons.1 hl with h | h
      · subst h; simp at hc
      · exact List.mem_cons_of_mem _ (ih l h c hc)
    · rw [if_neg hx] at hl
      cases hsp : splitNL t with
      | nil => exact absurd hsp (splitNL_ne_nil t)
      | cons a as =>
        rw [hsp] at hl
        rcases List.mem_cons.1 hl with h | h
        · subst h
          rcases List.mem_cons.1 hc with h2 | h2
          · subst h2; simp
          · exact List.mem_cons_of_mem _ (ih a (by rw [hsp]; simp) c h2)
        · exact List.mem_cons_of_mem _ (ih l (by rw [hsp]; simp [h]) c hc)

theorem splitNL_all {a : List Char} (h : ∀ c ∈ a, c ≠ '\n') : splitNL a = [a] := by
  induction a with
  | nil => rfl
  | cons c t ih =>
    unfold splitNL
    rw [if_neg (h c (by simp)), ih (fun x hx => h x (by simp [hx]))]

theorem splitNL_append {a : List Char} (rest : List Char) (h : ∀ c ∈ a, c ≠ '\n') :
    splitNL (a ++ '\n' :: rest) = a :: splitNL rest := by
  induction a with
  | nil =>
    show splitNL ('\n' :: rest) = [] :: splitNL rest
    unfold splitNL
    rw [if_pos rfl]
    cases rest <;> rfl
  | cons c t ih =>
    show splitNL (c :: (t ++ '\n' :: rest)) = _
    unfold splitNL
    rw [if_neg (h c (by simp)), ih (fun x hx => h x (by simp [hx]))]
    cases rest <;> rfl

theorem splitNL_interNL : ∀ {M : List (List Char)}, M ≠ [] →
    (∀ l ∈ M, ∀ c ∈ l, c ≠ '\n') → splitNL (interNL M) = M := by
  intro M
  induction M with
  | nil => intro h _; exact absurd rfl h
  | cons a t ih =>
    intro _ h
    cases t with
    | nil =>
      show splitNL (interNL [a]) = [a]
      exact splitNL_all (h a (by simp))
    | cons b t2 =>
      show splitNL (a ++ '\n' :: interNL (b :: t2)) = _
      rw [splitNL_append _ (h a (by simp)), ih (by simp) (fun l hl => h l (by simp [hl]))]

theorem replCRLF_id : ∀ {l : List Char}, (∀ c ∈ l, c ≠ '\r') → replCRLF l = l := by
  intro l
  induction l with
  | nil => intro _; rfl
  | cons c t ih =>
    intro h
    cases t with
    | nil => rfl
    | cons c2 t2 =>
      unfold replCRLF
      rw [if_neg (by
        intro hc
        exact h c (by simp) hc.1)]
      rw [ih (fun x hx => h x (by simp [hx]))]

theorem mapCR_id {l : List Char} (h : ∀ c ∈ l, c ≠ '\r') : mapCR l = l := by
  unfold mapCR
  rw [List.map_congr_left (fun c hc => by rw [if_neg (h c hc)])]
  simp

theorem noCR_mapCR (l : List Char) : ∀ c ∈ mapCR l, c ≠ '\r' := by
  intro c hc
  unfold mapCR at hc
  rcases List.mem_map.1 hc with ⟨x, _, hx⟩
  by_cases h : x = '\r'
  · rw [if_pos h] at hx
    rw [← hx]
    decide
  · rw [if_neg h] at hx
    rw [← hx]
    exact h

theorem mem_lstripNL {l : List Char} {c : Char} (h : c ∈ lstripNL l) : c ∈ l :=
  (List.dropWhile_sublist _).mem h

theorem mem_rstripNL {l : List Char} {c : Char} (h : c ∈ rstripNL l) : c ∈ l := by
  unfold rstripNL at h
  rw [List.mem_reverse] at h
  have h2 := (List.dropWhile_sublist (fun c => c = '\n')).mem h
  exact List.mem_reverse.1 h2

theorem mem_stripNLends {l : List Char} {c : Char} (h : c ∈ stripNLends l) : c ∈ l :=
  mem_rstripNL (mem_lstripNL h)

theorem head?_dropWhile_not {p : Char → Bool} : ∀ {l : List Char} {a : Char},
    (l.dropWhile p).head? = some a → p a = false := by
  intro l
  induction l with
  | nil => intro a h; simp at h
  | cons c t ih =>
    intro a h
    by_cases hc : p c = true
    · rw [List.dropWhile_cons_of_pos hc] at h
      exact ih h
    · rw [List.dropWhile_cons_of_neg hc] at h
      simp at h
      rw [← h]
      simpa using hc

theorem dropWhile_idem (p : Char → Bool) (l : List Char) :
    (l.dropWhile p).dropWhile p = l.dropWhile p := by
  cases h : l.dropWhile p with
  | nil => rfl
  | cons a t =>
    have ha : p a = false := head?_dropWhile_not (by rw [h]; rfl)
    rw [List.dropWhile_cons_of_neg (by simp [ha])]

theorem rstripNL_append_nl (l : List Char) : rstripNL (l ++ ['\n']) = rstripNL l := by
  unfold rstripNL
  rw [List.reverse_append]
  rfl

theorem rstripNL_idem (l : List Char) : rstripNL (rstripNL l) = rstripNL l := by
  unfold rstripNL
  rw [List.reverse_reverse, dropWhile_idem]

theorem lstripNL_getLast? : ∀ {l : List Char}, lstripNL l ≠ [] →
    (lstripNL l).getLast? = l.getLast? := by
  intro l
  induction l with
  | nil => intro _; rfl
  | cons c t ih =>
    intro h
    by_cases hc : c = '\n'
    · have hstep : lstripNL (c :: t) = lstripNL t := by
        unfold lstripNL
        rw [List.dropWhile_cons_of_pos (by simp [hc])]
      rw [hstep] at h ⊢
      rw [ih h]
      cases t with
      | nil => exact absurd rfl h
      | cons b t2 => rw [List.getLast?_cons_cons]
    · have hstep : lstripNL (c :: t) = c :: t := by
        unfold lstripNL
        rw [List.dropWhile_cons_of_neg (by simp [hc])]
      rw [hstep]

/-- Generic head-mismatch transfer: if `l` starts with `s` and the head
characters of `s` and `t` differ, `l` does not start with `t`. -/
theorem hasPre_head_ne {s t : String} {a b : Char} {as bs : List Char}
    (hs : s.data = a :: as) (ht : t.data = b :: bs) (hab : ¬ b = a) {l : List Char}
    (h : hasPre s l = true) : hasPre t l = false := by
  cases l with
  | nil =>
    rw [hasPre, hs] at h
    exact absurd h (by simp [pfx])
  | cons c cs =>
    have hac : a = c := by
      rw [hasPre, hs] at h
      have h2 : a = c ∧ pfx as cs = true := by simpa [pfx, Bool.and_eq_true] using h
      exact h2.1
    rw [hasPre, ht]
    exact pfx_false_head (by rw [← hac]; exact hab) bs cs

theorem hasPre_old_oldH (ph : List Char) :
    hasPre ("--- ") (("--- a/").data ++ ph) = true := pfx_mono _ (by decide)

theorem hasPre_new_newH (ph : List Char) :
    hasPre ("+++ ") (("+++ b/").data ++ ph) = true := pfx_mono _ (by decide)

theorem hasPre_new_oldH (ph : List Char) :
    hasPre ("+++ ") (("--- a/").data ++ ph) = false :=
  hasPre_head_ne rfl rfl (by decide) (hasPre_old_oldH ph)

theorem hasPre_old_newH (ph : List Char) :
    hasPre ("--- ") (("+++ b/").data ++ ph) = false :=
  hasPre_head_ne rfl rfl (by decide) (hasPre_new_newH ph)

theorem hasPre_dg_oldH (ph : List Char) :
    hasPre ("diff --git ") (("--- a/").data ++ ph) = false :=
  hasPre_head_ne rfl rfl (by decide) (hasPre_old_oldH ph)

theorem hasPre_dg_newH (ph : List Char) :
    hasPre ("diff --git ") (("+++ b/").data ++ ph) = false :=
  hasPre_head_ne rfl rfl (by decide) (hasPre_new_newH ph)

theorem hasPre_at_oldH (ph : List Char) :
    hasPre ("@@") (("--- a/").data ++ ph) = false :=
  hasPre_head_ne rfl rfl (by decide) (hasPre_old_oldH ph)

theorem hasPre_at_newH (ph : List Char) :
    hasPre ("@@") (("+++ b/").data ++ ph) = false :=
  hasPre_head_ne rfl rfl (by decide) (hasPre_new_newH ph)

theorem hasPre_old_of_at {l : List Char} (h : hasPre ("@@") l = true) :
    hasPre ("--- ") l = false := hasPre_head_ne rfl rfl (by decide) h

theorem hasPre_new_of_at {l : List Char} (h : hasPre ("@@") l = true) :
    hasPre ("+++ ") l = false := hasPre_head_ne rfl rfl (by decide) h

theorem hasPre_at_of_dg {l : List Char} (h : hasPre ("diff --git ") l = true) :
    hasPre ("@@") l = false := hasPre_head_ne rfl rfl (by decide) h

/-- First line matching a predicate; `replaceFirst` is the identity exactly
when that line is already the replacement. -/
def firstMatch (q : List Char → Bool) : List (List Char) → Option (List Char)
  | [] => none
  | x :: t => if q x then some x else firstMatch q t

theorem replaceFirst_of_firstMatch {q : List Char → Bool} {r : List Char} :
    ∀ {M : List (List Char)}, firstMatch q M = some r →
      Postprocess.replaceFirst q r M = M := by
  intro M
  induction M with
  | nil => intro h; rfl
  | cons x t ih =>
    intro h
    unfold firstMatch at h
    by_cases hx : q x = true
    · rw [if_pos hx] at h
      have : x = r := by simpa using h
      unfold Postprocess.replaceFirst
      rw [if_pos hx, this]
    · rw [if_neg hx] at h
      unfold Postprocess.replaceFirst
      rw [if_neg hx, ih h]

theorem firstMatch_replaceFirst {q : List Char → Bool} {r : List Char} (hr : q r = true) :
    ∀ {L : List (List Char)}, L.any q = true →
      firstMatch q (Postprocess.replaceFirst q r L) = some r := by
  intro L
  induction L with
  | nil => intro h; simp at h
  | cons x t ih =>
    intro h
    unfold Postprocess.replaceFirst
    by_cases hx : q x = true
    · rw [if_pos hx]
      unfold firstMatch
      rw [if_pos hr]
    · rw [if_neg hx]
      unfold firstMatch
      rw [if_neg hx]
      exact ih (by simpa [hx] using h)

theorem any_of_firstMatch {q : List Char → Bool} {r : List Char} :
    ∀ {M : List (List Char)}, firstMatch q M = some r → M.any q = true := by
  intro M
  induction M with
  | nil => intro h; simp [firstMatch] at h
  | cons x t ih =>
    intro h
    unfold firstMatch at h
    by_cases hx : q x = true
    · simp [hx]
    · rw [if_neg hx] at h
      simp [ih h]

theorem firstMatch_map {q : List Char → Bool} {f : List Char → List Char} {r : List Char}
    (hq : ∀ x, q (f x) = q x) (hr : f r = r) :
    ∀ {M : List (List Char)}, firstMatch q M = some r →
      firstMatch q (M.map f) = some r := by
  intro M
  induction M with
  | nil => intro h; simp [firstMatch] at h
  | cons x t ih =>
    intro h
    unfold firstMatch at h
    rw [List.map_cons]
    unfold firstMatch
    by_cases hx : q x = true
    · rw [if_pos hx] at h
      have hxr : x = r := by simpa using h
      subst hxr
      rw [hr, if_pos hx]
    · rw [if_neg hx] at h
      rw [if_neg (by rw [hq x]; exact hx), ih h]

theorem insertHdrs_cases {ph : List Char} : ∀ {X R : List (List Char)},
    Postprocess.insertHdrs ph X = some R →
    ∃ A b B, X = A ++ b :: B ∧ (∀ x ∈ A, hasPre ("@@") x = false) ∧
      hasPre ("@@") b = true ∧
      R = A ++ ((("--- a/").data ++ ph) :: (("+++ b/").data ++ ph) :: b :: B) := by
  intro X
  induction X with
  | nil => intro R h; simp [Postprocess.insertHdrs] at h
  | cons l t ih =>
    intro R h
    unfold Postprocess.insertHdrs at h
    by_cases hl : hasPre ("@@") l = true
    · rw [if_pos hl] at h
      refine ⟨[], l, t, rfl, by simp, hl, ?_⟩
      simpa using h.symm
    · rw [if_neg hl] at h
      cases hins : Postprocess.insertHdrs ph t with
      | none => rw [hins] at h; simp at h
      | some R' =>
        rw [hins] at h
        simp at h
        obtain ⟨A, b, B, h1, h2, h3, h4⟩ := ih hins
        refine ⟨l :: A, b, B, by simp [h1], ?_, h3, ?_⟩
        · intro x hx
          rcases List.mem_cons.1 hx with h5 | h5
          · rw [h5]; simpa using hl
          · exact h2 x h5
        · rw [← h, h4]
          simp

theorem firstMatch_cons (q : List Char → Bool) (x : List Char) (t : List (List Char)) :
    firstMatch q (x :: t) = if q x then some x else firstMatch q t := rfl

theorem bool_tf {b : Bool} (h1 : b = true) (h2 : b = false) : False := by
  rw [h1] at h2
  exact Bool.noConfusion h2

theorem rwHeader_nilph (l : List Char) : Postprocess.rwHeader [] l = l := by
  unfold Postprocess.rwHeader
  split
  · rw [if_neg (fun hc => hc.1 rfl)]
  · split
    · rw [if_neg (fun hc => hc.1 rfl)]
    · rfl

/-- The header-rewriting loop body returns the line itself or one of the two
synthesized header lines. -/
theorem rwHeader_cases (ph l : List Char) :
    Postprocess.rwHeader ph l = l ∨ Postprocess.rwHeader ph l = ("--- a/").data ++ ph ∨
      Postprocess.rwHeader ph l = ("+++ b/").data ++ ph := by
  unfold Postprocess.rwHeader
  split
  · split
    · exact Or.inr (Or.inl rfl)
    · exact Or.inl rfl
  · split
    · split
      · exact Or.inr (Or.inr rfl)
      · exact Or.inl rfl
    · exact Or.inl rfl

theorem oldH_ne_nil (ph : List Char) : ("--- a/").data ++ ph ≠ [] := fun he =>
  absurd (List.append_eq_nil.1 he).1 (by decide)

theorem newH_ne_nil (ph : List Char) : ("+++ b/").data ++ ph ≠ [] := fun he =>
  absurd (List.append_eq_nil.1 he).1 (by decide)

theorem dgLine_ne_nil (ph : List Char) : Postprocess.dgLine ph ≠ [] := by
  rw [dgLine_eq]
  intro he
  exact absurd (List.append_eq_nil.1 he).1 (by decide)

theorem rwHeader_ne_nil {ph l : List Char} (h : l ≠ []) : Postprocess.rwHeader ph l ≠ [] := by
  rcases rwHeader_cases ph l with hc | hc | hc <;> rw [hc]
  · exact h
  · exact oldH_ne_nil ph
  · exact newH_ne_nil ph

theorem hasPre_dg_rwHeader (ph l : List Char) :
    hasPre ("diff --git ") (Postprocess.rwHeader ph l) = hasPre ("diff --git ") l := by
  unfold Postprocess.rwHeader
  by_cases h1 : hasPre ("--- ") l = true
  · rw [if_pos h1]
    split
    · rw [hasPre_dg_oldH ph, hasPre_head_ne rfl rfl (by decide) h1]
    · rfl
  · rw [if_neg h1]
    by_cases h2 : hasPre ("+++ ") l = true
    · rw [if_pos h2]
      split
      · rw [hasPre_dg_newH ph, hasPre_head_ne rfl rfl (by decide) h2]
      · rfl
    · rw [if_neg h2]

theorem hasPre_at_rwHeader (ph l : List Char) :
    hasPre ("@@") (Postprocess.rwHeader ph l) = hasPre ("@@") l := by
  unfold Postprocess.rwHeader
  by_cases h1 : hasPre ("--- ") l = true
  · rw [if_pos h1]
    split
    · rw [hasPre_at_oldH ph, hasPre_head_ne rfl rfl (by decide) h1]
    · rfl
  · rw [if_neg h1]
    by_cases h2 : hasPre ("+++ ") l = true
    · rw [if_pos h2]
      split
      · rw [hasPre_at_newH ph, hasPre_head_ne rfl rfl (by decide) h2]
      · rfl
    · rw [if_neg h2]

theorem hasPre_old_rwHeader {ph l : List Char} (h : hasPre ("--- ") l = true) :
    hasPre ("--- ") (Postprocess.rwHeader ph l) = true := by
  unfold Postprocess.rwHeader
  rw [if_pos h]
  split
  · exact hasPre_old_oldH ph
  · exact h

theorem hasPre_new_rwHeader {ph l : List Char} (h : hasPre ("+++ ") l = true) :
    hasPre ("+++ ") (Postprocess.rwHeader ph l) = true := by
  have h1 : hasPre ("--- ") l = false := hasPre_head_ne rfl rfl (by decide) h
  unfold Postprocess.rwHeader
  rw [if_neg (fun hc => bool_tf hc h1), if_pos h]
  split
  · exact hasPre_new_newH ph
  · exact h

/-- Invariant of the header lines after one pass of the `--- `/`+++ ` loop:
every file-header line either mentions `/dev/null` or is already the
synthesized header for the path hint. -/
def hdrOK (ph l : List Char) : Prop :=
  (hasPre ("--- ") l = true →
    hasSub (("/dev/null").data) l = true ∨ l = ("--- a/").data ++ ph) ∧
  (hasPre ("+++ ") l = true →
    hasSub (("/dev/null").data) l = true ∨ l = ("+++ b/").data ++ ph)

theorem hdrOK_rwHeader {ph : List Char} (hph : ¬ ph = []) (l : List Char) :
    hdrOK ph (Postprocess.rwHeader ph l) := by
  unfold Postprocess.rwHeader
  by_cases h1 : hasPre ("--- ") l = true
  · have hno : hasPre ("+++ ") l = false := hasPre_head_ne rfl rfl (by decide) h1
    rw [if_pos h1]
    by_cases hdev : hasSub (("/dev/null").data) l = true
    · rw [if_neg (fun hc => hc.2 hdev)]
      exact ⟨fun _ => Or.inl hdev, fun hn => (bool_tf hn hno).elim⟩
    · rw [if_pos ⟨hph, hdev⟩]
      exact ⟨fun _ => Or.inr rfl, fun hn => (bool_tf hn (hasPre_new_oldH ph)).elim⟩
  · rw [if_neg h1]
    by_cases h2 : hasPre ("+++ ") l = true
    · rw [if_pos h2]
      by_cases hdev : hasSub (("/dev/null").data) l = true
      · rw [if_neg (fun hc => hc.2 hdev)]
        exact ⟨fun ho => absurd ho h1, fun _ => Or.inl hdev⟩
      · rw [if_pos ⟨hph, hdev⟩]
        exact ⟨fun ho => (bool_tf ho (hasPre_old_newH ph)).elim, fun _ => Or.inr rfl⟩
    · rw [if_neg h2]
      exact ⟨fun ho => absurd ho h1, fun hn => absurd hn h2⟩

theorem rwHeader_of_hdrOK {ph l : List Char} (h : hdrOK ph l) :
    Postprocess.rwHeader ph l = l := by
  unfold Postprocess.rwHeader
  by_cases h1 : hasPre ("--- ") l = true
  · rw [if_pos h1]
    rcases h.1 h1 with hdev | heq
    · rw [if_neg (fun hc => hc.2 hdev)]
    · split
      · exact heq.symm
      · rfl
  · rw [if_neg h1]
    by_cases h2 : hasPre ("+++ ") l = true
    · rw [if_pos h2]
      rcases h.2 h2 with hdev | heq
      · rw [if_neg (fun hc => hc.2 hdev)]
      · split
        · exact heq.symm
        · rfl
    · rw [if_neg h2]

theorem hdrOK_oldH (ph : List Char) : hdrOK ph (("--- a/").data ++ ph) :=
  ⟨fun _ => Or.inr rfl, fun hn => (bool_tf hn (hasPre_new_oldH ph)).elim⟩

theorem hdrOK_newH (ph : List Char) : hdrOK ph (("+++ b/").data ++ ph) :=
  ⟨fun ho => (bool_tf ho (hasPre_old_newH ph)).elim, fun _ => Or.inr rfl⟩

theorem any_map_rwHeader (ph : List Char) {pr : List Char → Bool}
    (hp : ∀ l, pr (Postprocess.rwHeader ph l) = pr l) :
    ∀ L : List (List Char), (L.map (Postprocess.rwHeader ph)).any pr = L.any pr := by
  intro L
  induction L with
  | nil => rfl
  | cons x t ih => simp only [List.map_cons, List.any_cons, hp, ih]

theorem any_map_of {f : List Char → List Char} {pr : List Char → Bool}
    (hf : ∀ l, pr l = true → pr (f l) = true) :
    ∀ {L : List (List Char)}, L.any pr = true → (L.map f).any pr = true := by
  intro L h
  rcases List.any_eq_true.1 h with ⟨x, hx, hpx⟩
  exact List.any_eq_true.2 ⟨f x, List.mem_map_of_mem f hx, hf x hpx⟩

theorem length_replaceFirst (q : List Char → Bool) (r : List Char) :
    ∀ L : List (List Char), (Postprocess.replaceFirst q r L).length = L.length := by
  intro L
  induction L with
  | nil => rfl
  | cons x xs ih =>
    unfold Postprocess.replaceFirst
    split
    · simp
    · simp [ih]

theorem mem_replaceFirst {q : List Char → Bool} {r x : List Char} :
    ∀ {L : List (List Char)}, x ∈ Postprocess.replaceFirst q r L → x = r ∨ x ∈ L := by
  intro L
  induction L with
  | nil => intro h; simp [Postprocess.replaceFirst] at h
  | cons y ys ih =>
    intro h
    unfold Postprocess.replaceFirst at h
    split at h
    · rcases List.mem_cons.1 h with h1 | h1
      · exact Or.inl h1
      · exact Or.inr (List.mem_cons.2 (Or.inr h1))
    · rcases List.mem_cons.1 h with h1 | h1
      · exact Or.inr (List.mem_cons.2 (Or.inl h1))
      · rcases ih h1 with h2 | h2
        · exact Or.inl h2
        · exact Or.inr (List.mem_cons.2 (Or.inr h2))

theorem getLast?_replaceFirst {q : List Char → Bool} {r : List Char} :
    ∀ {L : List (List Char)} {lt : List Char},
      (Postprocess.replaceFirst q r L).getLast? = some lt → lt = r ∨ L.getLast? = some lt := by
  intro L
  induction L with
  | nil => intro lt h; simp [Postprocess.replaceFirst] at h
  | cons x xs ih =>
    intro lt h
    unfold Postprocess.replaceFirst at h
    by_cases hx : q x = true
    · rw [if_pos hx] at h
      cases xs with
      | nil =>
        have hrl : r = lt := by simpa using h
        exact Or.inl hrl.symm
      | cons y ys =>
        rw [List.getLast?_cons_cons] at h
        right
        rw [List.getLast?_cons_cons]
        exact h
    · rw [if_neg hx] at h
      cases xs with
      | nil =>
        right
        simpa [Postprocess.replaceFirst] using h
      | cons y ys =>
        cases hzz : Postprocess.replaceFirst q r (y :: ys) with
        | nil =>
          exfalso
          have hlen := congrArg List.length hzz
          rw [length_replaceFirst] at hlen
          simp at hlen
        | cons z zs =>
          rw [hzz, List.getLast?_cons_cons, ← hzz] at h
          rcases ih h with h1 | h1
          · exact Or.inl h1
          · right
            rw [List.getLast?_cons_cons]
            exact h1

theorem mem_dgStep {ph : List Char} {L : List (List Char)} {x : List Char}
    (h : x ∈ Postprocess.dgStep ph L) : x = Postprocess.dgLine ph ∨ x ∈ L := by
  unfold Postprocess.dgStep at h
  split at h
  · split at h
    · exact mem_replaceFirst h
    · exact Or.inr h
  · split at h
    · rcases List.mem_cons.1 h with h1 | h1
      · exact Or.inl h1
      · exact Or.inr h1
    · exact Or.inr h

theorem head?_dgStep {ph : List Char} {L : List (List Char)} {hd : List Char}
    (h : (Postprocess.dgStep ph L).head? = some hd) :
    hd = Postprocess.dgLine ph ∨ L.head? = some hd := by
  unfold Postprocess.dgStep at h
  split at h
  · split at h
    · cases L with
      | nil => simp [Postprocess.replaceFirst] at h
      | cons x xs =>
        unfold Postprocess.replaceFirst at h
        split at h
        · have hdl : Postprocess.dgLine ph = hd := by simpa using h
          exact Or.inl hdl.symm
        · right
          simpa using h
    · exact Or.inr h
  · split at h
    · have hdl : Postprocess.dgLine ph = hd := by simpa using h
      exact Or.inl hdl.symm
    · exact Or.inr h

theorem getLast?_dgStep {ph : List Char} {L : List (List Char)} {lt : List Char}
    (h : (Postprocess.dgStep ph L).getLast? = some lt) :
    lt = Postprocess.dgLine ph ∨ L.getLast? = some lt := by
  unfold Postprocess.dgStep at h
  split at h
  · split at h
    · rcases getLast?_replaceFirst h with h1 | h1
      · exact Or.inl h1
      · exact Or.inr h1
    · exact Or.inr h
  · split at h
    · cases L with
      | nil =>
        have hdl : Postprocess.dgLine ph = lt := by simpa using h
        exact Or.inl hdl.symm
      | cons y ys =>
        rw [List.getLast?_cons_cons] at h
        exact Or.inr h
    · exact Or.inr h

theorem getLast?_app_cons {α : Type} : ∀ (l1 : List α) (c : α) (l2 : List α),
    (l1 ++ c :: l2).getLast? = (c :: l2).getLast? := by
  intro l1 c l2
  induction l1 with
  | nil => rfl
  | cons a t ih =>
    cases ht : t ++ c :: l2 with
    | nil =>
      exfalso
      have hlen := congrArg List.length ht
      simp at hlen
    | cons b bs =>
      rw [List.cons_append, ht, List.getLast?_cons_cons, ← ht, ih]

theorem head?_insertHdrs {ph : List Char} {X R : List (List Char)} {hd : List Char}
    (hins : Postprocess.insertHdrs ph X = some R) (h : R.head? = some hd) :
    hd = ("--- a/").data ++ ph ∨ X.head? = some hd := by
  obtain ⟨A, b, B, hX, _, _, hR⟩ := insertHdrs_cases hins
  subst hR
  cases A with
  | nil =>
    left
    have hh : ("--- a/").data ++ ph = hd := by simpa using h
    exact hh.symm
  | cons a as =>
    right
    rw [hX]
    simpa using h

theorem getLast?_insertHdrs {ph : List Char} {X R : List (List Char)}
    (hins : Postprocess.insertHdrs ph X = some R) : R.getLast? = X.getLast? := by
  obtain ⟨A, b, B, hX, _, _, hR⟩ := insertHdrs_cases hins
  rw [hR, hX, getLast?_app_cons, getLast?_app_cons, List.getLast?_cons_cons,
    List.getLast?_cons_cons]

theorem firstMatch_insertHdrs {q : List Char → Bool} {r ph : List Char}
    (hold : q (("--- a/").data ++ ph) = false) (hnew : q (("+++ b/").data ++ ph) = false) :
    ∀ {X R : List (List Char)}, firstMatch q X = some r →
      Postprocess.insertHdrs ph X = some R → firstMatch q R = some r := by
  intro X
  induction X with
  | nil => intro R h hins; simp [Postprocess.insertHdrs] at hins
  | cons l t ih =>
    intro R h hins
    unfold Postprocess.insertHdrs at hins
    by_cases hl : hasPre ("@@") l = true
    · rw [if_pos hl] at hins
      have hR : (("--- a/").data ++ ph) :: (("+++ b/").data ++ ph) :: l :: t = R := by
        simpa using hins
      rw [← hR]
      rw [firstMatch_cons, if_neg (fun hc => bool_tf hc hold),
        firstMatch_cons, if_neg (fun hc => bool_tf hc hnew)]
      exact h
    · rw [if_neg hl] at hins
      cases hrec : Postprocess.insertHdrs ph t with
      | none => rw [hrec] at hins; simp at hins
      | some R' =>
        rw [hrec] at hins
        have hR : l :: R' = R := by simpa using hins
        rw [← hR]
        rw [firstMatch_cons] at h ⊢
        by_cases hql : q l = true
        · rw [if_pos hql] at h ⊢
          exact h
        · rw [if_neg hql] at h ⊢
          exact ih h hrec

theorem firstMatch_dgStep {ph : List Char} (hph : ¬ ph = []) (L : List (List Char)) :
    firstMatch (fun l => hasPre ("diff --git ") l) (Postprocess.dgStep ph L)
      = some (Postprocess.dgLine ph) := by
  unfold Postprocess.dgStep
  cases hdg : L.any (fun l => hasPre ("diff --git ") l) with
  | false =>
    rw [if_neg (fun hc => Bool.noConfusion hc), if_pos hph]
    rw [firstMatch_cons, if_pos (hasPre_dg_dgLine ph)]
  | true =>
    rw [if_pos rfl, if_pos hph]
    exact firstMatch_replaceFirst (hasPre_dg_dgLine ph) hdg

theorem dgStep_fix {ph : List Char} {M : List (List Char)}
    (hfm : firstMatch (fun l => hasPre ("diff --git ") l) M = some (Postprocess.dgLine ph)) :
    Postprocess.dgStep ph M = M := by
  unfold Postprocess.dgStep
  rw [if_pos (any_of_firstMatch hfm)]
  by_cases hph : ph = []
  · rw [if_neg (by simp [hph])]
  · rw [if_pos hph]
    exact replaceFirst_of_firstMatch hfm

/-- `prepareLines` with its let-bindings expanded, for stepwise reasoning. -/
theorem prepareLines_eq (ph : List Char) (L : List (List Char)) :
    Postprocess.prepareLines ph L =
      (if ¬ (L.any (fun l => hasPre ("@@") l)) = true then none
       else if ((Postprocess.dgStep ph L).any (fun l => hasPre ("--- ") l)) = true ∧
           ¬ ((Postprocess.dgStep ph L).any (fun l => hasPre ("+++ ") l)) = true ∨
           ((Postprocess.dgStep ph L).any (fun l => hasPre ("+++ ") l)) = true ∧
           ¬ ((Postprocess.dgStep ph L).any (fun l => hasPre ("--- ") l)) = true then none
       else
         match (if ¬ ((Postprocess.dgStep ph L).any (fun l => hasPre ("--- ") l)) = true ∧
             ¬ ((Postprocess.dgStep ph L).any (fun l => hasPre ("+++ ") l)) = true then
             (if ph = [] then none
              else Postprocess.insertHdrs ph
                ((Postprocess.dgStep ph L).map (Postprocess.rwHeader ph)))
           else some ((Postprocess.dgStep ph L).map (Postprocess.rwHeader ph))) with
         | none => none
         | some L3 =>
           some (if ph ≠ [] ∧ ¬ (L3.any (fun l => hasPre ("diff --git ") l)) = true
             then Postprocess.dgLine ph :: L3 else L3)) := rfl

/-- A line list on which the normalizer is the identity: a hunk header is
present, the first `diff --git ` line is exactly the synthesized one, both
file-header flags hold, and every header line is already in final form. -/
theorem prepareLines_of_fixed {ph : List Char} {M : List (List Char)}
    (hat : M.any (fun l => hasPre ("@@") l) = true)
    (hfm : firstMatch (fun l => hasPre ("diff --git ") l) M = some (Postprocess.dgLine ph))
    (hold : M.any (fun l => hasPre ("--- ") l) = true)
    (hnew : M.any (fun l => hasPre ("+++ ") l) = true)
    (hok : ∀ l ∈ M, hdrOK ph l) :
    Postprocess.prepareLines ph M = some M := by
  have hdgM : Postprocess.dgStep ph M = M := dgStep_fix hfm
  have hmap : M.map (Postprocess.rwHeader ph) = M := by
    rw [List.map_congr_left (fun l hl => rwHeader_of_hdrOK (hok l hl))]
    exact List.map_id _
  have hdgany : M.any (fun l => hasPre ("diff --git ") l) = true := any_of_firstMatch hfm
  rw [prepareLines_eq, hdgM, hmap]
  rw [if_neg (not_not_intro hat)]
  have hxor : ¬ ((M.any (fun l => hasPre ("--- ") l)) = true ∧
      ¬ (M.any (fun l => hasPre ("+++ ") l)) = true ∨
      (M.any (fun l => hasPre ("+++ ") l)) = true ∧
      ¬ (M.any (fun l => hasPre ("--- ") l)) = true) := by
    simp [hold, hnew]
  rw [if_neg hxor]
  have hsyn : ¬ (¬ (M.any (fun l => hasPre ("--- ") l)) = true ∧
      ¬ (M.any (fun l => hasPre ("+++ ") l)) = true) := by
    simp [hold]
  rw [if_neg hsyn]
  have hdgc : ¬ (ph ≠ [] ∧ ¬ (M.any (fun l => hasPre ("diff --git ") l)) = true) := by
    simp [hdgany]
  show some (if ph ≠ [] ∧ ¬ (M.any (fun l => hasPre ("diff --git ") l)) = true
      then Postprocess.dgLine ph :: M else M) = some M
  rw [if_neg hdgc]

/-- Inversion of a successful normalization run: the output line list is a
fixpoint of the normalizer, its lines originate from header synthesis or from
rewriting input lines, and its first and last lines are nonempty whenever the
input's were. -/
theorem prepareLines_main {ph : List Char} {L M : List (List Char)}
    (hLhd : ∀ hd, L.head? = some hd → hd ≠ [])
    (hLlt : ∀ lt, L.getLast? = some lt → lt ≠ [])
    (h : Postprocess.prepareLines ph L = some M) :
    Postprocess.prepareLines ph M = some M ∧
    (∀ x ∈ M, x = Postprocess.dgLine ph ∨ x = ("--- a/").data ++ ph ∨
      x = ("+++ b/").data ++ ph ∨ ∃ y ∈ L, x = Postprocess.rwHeader ph y) ∧
    (∀ hd, M.head? = some hd → hd ≠ []) ∧
    (∀ lt, M.getLast? = some lt → lt ≠ []) := by
  have h0 := h
  rw [prepareLines_eq] at h
  cases hq : L.any (fun l => hasPre ("@@") l) with
  | false =>
    exfalso
    have hc : ¬ (L.any (fun l => hasPre ("@@") l)) = true := by simp [hq]
    rw [if_pos hc] at h
    exact Option.noConfusion h
  | true =>
    have hat1 : (Postprocess.dgStep ph L).any (fun l => hasPre ("@@") l) = true := by
      rw [any_dgStep ph L (hasPre_at_dgLine ph) (fun x hx => hasPre_at_of_dg hx)]
      exact hq
    have hat2 : ((Postprocess.dgStep ph L).map (Postprocess.rwHeader ph)).any
        (fun l => hasPre ("@@") l) = true := by
      rw [any_map_rwHeader ph (fun l => hasPre_at_rwHeader ph l) _]
      exact hat1
    rw [if_neg (not_not_intro hq)] at h
    cases ha : (Postprocess.dgStep ph L).any (fun l => hasPre ("--- ") l) with
    | false =>
      cases hb : (Postprocess.dgStep ph L).any (fun l => hasPre ("+++ ") l) with
      | false =>
        -- neither header flag: the synthesized-header branch
        have hxor : ¬ (((Postprocess.dgStep ph L).any (fun l => hasPre ("--- ") l)) = true ∧
            ¬ ((Postprocess.dgStep ph L).any (fun l => hasPre ("+++ ") l)) = true ∨
            ((Postprocess.dgStep ph L).any (fun l => hasPre ("+++ ") l)) = true ∧
            ¬ ((Postprocess.dgStep ph L).any (fun l => hasPre ("--- ") l)) = true) := by
          simp [ha, hb]
        rw [if_neg hxor] at h
        have hsyn : ¬ ((Postprocess.dgStep ph L).any (fun l => hasPre ("--- ") l)) = true ∧
            ¬ ((Postprocess.dgStep ph L).any (fun l => hasPre ("+++ ") l)) = true := by
          simp [ha, hb]
        rw [if_pos hsyn] at h
        by_cases hph : ph = []
        · rw [if_pos hph] at h
          exact Option.noConfusion
            (show (none : Option (List (List Char))) = some M from h)
        · rw [if_neg hph] at h
          cases hins : Postprocess.insertHdrs ph
              ((Postprocess.dgStep ph L).map (Postprocess.rwHeader ph)) with
          | none =>
            rw [hins] at h
            exact Option.noConfusion
              (show (none : Option (List (List Char))) = some M from h)
          | some L3 =>
            rw [hins] at h
            have hfm2 : firstMatch (fun l => hasPre ("diff --git ") l)
                ((Postprocess.dgStep ph L).map (Postprocess.rwHeader ph))
                = some (Postprocess.dgLine ph) :=
              firstMatch_map (fun x => hasPre_dg_rwHeader ph x)
                (rwHeader_id (hasPre_old_dgLine ph) (hasPre_new_dgLine ph))
                (firstMatch_dgStep hph L)
            have hfm3 : firstMatch (fun l => hasPre ("diff --git ") l) L3
                = some (Postprocess.dgLine ph) :=
              firstMatch_insertHdrs (hasPre_dg_oldH ph) (hasPre_dg_newH ph) hfm2 hins
            have hdg3 : L3.any (fun l => hasPre ("diff --git ") l) = true :=
              any_of_firstMatch hfm3
            have h2 : some (if ph ≠ [] ∧
                ¬ (L3.any (fun l => hasPre ("diff --git ") l)) = true then
                Postprocess.dgLine ph :: L3 else L3) = some M := h
            have hdgc : ¬ (ph ≠ [] ∧
                ¬ (L3.any (fun l => hasPre ("diff --git ") l)) = true) :=
              fun hc => hc.2 hdg3
            rw [if_neg hdgc] at h2
            have hM : L3 = M := Option.some.inj h2
            obtain ⟨A, b0, B, hX, hA, hb0, hR⟩ := insertHdrs_cases hins
            have hmem3 : ∀ x ∈ L3, x = ("--- a/").data ++ ph ∨
                x = ("+++ b/").data ++ ph ∨
                x ∈ (Postprocess.dgStep ph L).map (Postprocess.rwHeader ph) := by
              intro x hx
              rw [hR] at hx
              rcases List.mem_append.1 hx with h1 | h1
              · right; right
                rw [hX]
                exact List.mem_append.2 (Or.inl h1)
              · rcases List.mem_cons.1 h1 with hc1 | hc1
                · exact Or.inl hc1
                rcases List.mem_cons.1 hc1 with hc2 | hc2
                · exact Or.inr (Or.inl hc2)
                · right; right
                  rw [hX]
                  exact List.mem_append.2 (Or.inr hc2)
            have hok3 : ∀ l ∈ L3, hdrOK ph l := by
              intro l hl
              rcases hmem3 l hl with h1 | h1 | h1
              · rw [h1]
                exact hdrOK_oldH ph
              · rw [h1]
                exact hdrOK_newH ph
              · rcases List.mem_map.1 h1 with ⟨y, _, hy⟩
                rw [← hy]
                exact hdrOK_rwHeader hph y
            have hat3 : L3.any (fun l => hasPre ("@@") l) = true := by
              apply List.any_eq_true.2
              refine ⟨b0, ?_, hb0⟩
              rw [hR]
              exact List.mem_append.2 (Or.inr (by simp))
            have hold3 : L3.any (fun l => hasPre ("--- ") l) = true := by
              apply List.any_eq_true.2
              refine ⟨("--- a/").data ++ ph, ?_, hasPre_old_oldH ph⟩
              rw [hR]
              exact List.mem_append.2 (Or.inr (by simp))
            have hnew3 : L3.any (fun l => hasPre ("+++ ") l) = true := by
              apply List.any_eq_true.2
              refine ⟨("+++ b/").data ++ ph, ?_, hasPre_new_newH ph⟩
              rw [hR]
              exact List.mem_append.2 (Or.inr (by simp))
            have hhd3 : ∀ hd, L3.head? = some hd → hd ≠ [] := by
              intro hd hhd
              rcases head?_insertHdrs hins hhd with h1 | h1
              · rw [h1]
                exact oldH_ne_nil ph
              · rw [List.head?_map] at h1
                cases hh1 : (Postprocess.dgStep ph L).head? with
                | none => rw [hh1] at h1; simp at h1
                | some y =>
                  rw [hh1] at h1
                  have hyd : Postprocess.rwHeader ph y = hd := by simpa using h1
                  rcases head?_dgStep hh1 with h2h | h2h
                  · rw [← hyd, h2h]
                    exact rwHeader_ne_nil (dgLine_ne_nil ph)
                  · rw [← hyd]
                    exact rwHeader_ne_nil (hLhd y h2h)
            have hlt3 : ∀ lt, L3.getLast? = some lt → lt ≠ [] := by
              intro lt hlt
              rw [getLast?_insertHdrs hins, List.getLast?_map] at hlt
              cases hh1 : (Postprocess.dgStep ph L).getLast? with
              | none => rw [hh1] at hlt; simp at hlt
              | some y =>
                rw [hh1] at hlt
                have hyd : Postprocess.rwHeader ph y = lt := by simpa using hlt
                rcases getLast?_dgStep hh1 with h2h | h2h
                · rw [← hyd, h2h]
                  exact rwHeader_ne_nil (dgLine_ne_nil ph)
                · rw [← hyd]
                  exact rwHeader_ne_nil (hLlt y h2h)
            subst hM
            refine ⟨prepareLines_of_fixed hat3 hfm3 hold3 hnew3 hok3, ?_, hhd3, hlt3⟩
            intro x hx
            rcases hmem3 x hx with h1 | h1 | h1
            · exact Or.inr (Or.inl h1)
            · exact Or.inr (Or.inr (Or.inl h1))
            · rcases List.mem_map.1 h1 with ⟨y, hy, hxy⟩
              rcases mem_dgStep hy with h2h | h2h
              · left
                rw [← hxy, h2h]
                exact rwHeader_id (hasPre_old_dgLine ph) (hasPre_new_dgLine ph)
              · exact Or.inr (Or.inr (Or.inr ⟨y, h2h, hxy.symm⟩))
      | true =>
        -- exactly one header flag: rejected, contradiction
        exfalso
        have hxor : ((Postprocess.dgStep ph L).any (fun l => hasPre ("--- ") l)) = true ∧
            ¬ ((Postprocess.dgStep ph L).any (fun l => hasPre ("+++ ") l)) = true ∨
            ((Postprocess.dgStep ph L).any (fun l => hasPre ("+++ ") l)) = true ∧
            ¬ ((Postprocess.dgStep ph L).any (fun l => hasPre ("--- ") l)) = true := by
          simp [ha, hb]
        rw [if_pos hxor] at h
        exact Option.noConfusion h
    | true =>
      cases hb : (Postprocess.dgStep ph L).any (fun l => hasPre ("+++ ") l) with
      | false =>
        exfalso
        have hxor : ((Postprocess.dgStep ph L).any (fun l => hasPre ("--- ") l)) = true ∧
            ¬ ((Postprocess.dgStep ph L).any (fun l => hasPre ("+++ ") l)) = true ∨
            ((Postprocess.dgStep ph L).any (fun l => hasPre ("+++ ") l)) = true ∧
            ¬ ((Postprocess.dgStep ph L).any (fun l => hasPre ("--- ") l)) = true := by
          simp [ha, hb]
        rw [if_pos hxor] at h
        exact Option.noConfusion h
      | true =>
        -- both header flags present: the rewritten list is returned
        have hxor : ¬ (((Postprocess.dgStep ph L).any (fun l => hasPre ("--- ") l)) = true ∧
            ¬ ((Postprocess.dgStep ph L).any (fun l => hasPre ("+++ ") l)) = true ∨
            ((Postprocess.dgStep ph L).any (fun l => hasPre ("+++ ") l)) = true ∧
            ¬ ((Postprocess.dgStep ph L).any (fun l => hasPre ("--- ") l)) = true) := by
          simp [ha, hb]
        rw [if_neg hxor] at h
        have hsyn2 : ¬ (¬ ((Postprocess.dgStep ph L).any (fun l => hasPre ("--- ") l)) = true ∧
            ¬ ((Postprocess.dgStep ph L).any (fun l => hasPre ("+++ ") l)) = true) := by
          simp [ha]
        rw [if_neg hsyn2] at h
        by_cases hph : ph = []
        · subst hph
          have hL1 : Postprocess.dgStep [] L = L := by
            unfold Postprocess.dgStep
            simp
          have hL2 : L.map (Postprocess.rwHeader []) = L := by
            rw [List.map_congr_left (fun l _ => rwHeader_nilph l)]
            exact List.map_id _
          rw [hL1, hL2] at h
          have h2 : some (if ([] : List Char) ≠ [] ∧
              ¬ (L.any (fun l => hasPre ("diff --git ") l)) = true
              then Postprocess.dgLine [] :: L else L) = some M := h
          have hnil : ¬ (([] : List Char) ≠ [] ∧
              ¬ (L.any (fun l => hasPre ("diff --git ") l)) = true) := fun hc => hc.1 rfl
          rw [if_neg hnil] at h2
          have hM : L = M := Option.some.inj h2
          subst hM
          refine ⟨h0, ?_, hLhd, hLlt⟩
          intro x hx
          exact Or.inr (Or.inr (Or.inr ⟨x, hx, (rwHeader_nilph x).symm⟩))
        · have hfm2 : firstMatch (fun l => hasPre ("diff --git ") l)
              ((Postprocess.dgStep ph L).map (Postprocess.rwHeader ph))
              = some (Postprocess.dgLine ph) :=
            firstMatch_map (fun x => hasPre_dg_rwHeader ph x)
              (rwHeader_id (hasPre_old_dgLine ph) (hasPre_new_dgLine ph))
              (firstMatch_dgStep hph L)
          have hdg2 : ((Postprocess.dgStep ph L).map (Postprocess.rwHeader ph)).any
              (fun l => hasPre ("diff --git ") l) = true := any_of_firstMatch hfm2
          have h2 : some (if ph ≠ [] ∧
              ¬ (((Postprocess.dgStep ph L).map (Postprocess.rwHeader ph)).any
                (fun l => hasPre ("diff --git ") l)) = true
              then Postprocess.dgLine ph ::
                (Postprocess.dgStep ph L).map (Postprocess.rwHeader ph)
              else (Postprocess.dgStep ph L).map (Postprocess.rwHeader ph)) = some M := h
          have hdgc : ¬ (ph ≠ [] ∧
              ¬ (((Postprocess.dgStep ph L).map (Postprocess.rwHeader ph)).any
                (fun l => hasPre ("diff --git ") l)) = true) := fun hc => hc.2 hdg2
          rw [if_neg hdgc] at h2
          have hM : (Postprocess.dgStep ph L).map (Postprocess.rwHeader ph) = M :=
            Option.some.inj h2
          have hold2 : M.any (fun l => hasPre ("--- ") l) = true := by
            rw [← hM]
            exact any_map_of (fun l hl => hasPre_old_rwHeader hl) ha
          have hnew2 : M.any (fun l => hasPre ("+++ ") l) = true := by
            rw [← hM]
            exact any_map_of (fun l hl => hasPre_new_rwHeader hl) hb
          have hatM : M.any (fun l => hasPre ("@@") l) = true := by
            rw [← hM]
            exact hat2
          have hfmM : firstMatch (fun l => hasPre ("diff --git ") l) M
              = some (Postprocess.dgLine ph) := by
            rw [← hM]
            exact hfm2
          have hokM : ∀ l ∈ M, hdrOK ph l := by
            rw [← hM]
            intro l hl
            rcases List.mem_map.1 hl with ⟨y, _, hy⟩
            rw [← hy]
            exact hdrOK_rwHeader hph y
          refine ⟨prepareLines_of_fixed hatM hfmM hold2 hnew2 hokM, ?_, ?_, ?_⟩
          · intro x hx
            rw [← hM] at hx
            rcases List.mem_map.1 hx with ⟨y, hy, hxy⟩
            rcases mem_dgStep hy with h2h | h2h
            · left
              rw [← hxy, h2h]
              exact rwHeader_id (hasPre_old_dgLine ph) (hasPre_new_dgLine ph)
            · exact Or.inr (Or.inr (Or.inr ⟨y, h2h, hxy.symm⟩))
          · intro hd hhd
            rw [← hM, List.head?_map] at hhd
            cases hh1 : (Postprocess.dgStep ph L).head? with
            | none => rw [hh1] at hhd; simp at hhd
            | some y =>
              rw [hh1] at hhd
              have hyd : Postprocess.rwHeader ph y = hd := by simpa using hhd
              rcases head?_dgStep hh1 with h2h | h2h
              · rw [← hyd, h2h]
                exact rwHeader_ne_nil (dgLine_ne_nil ph)
              · rw [← hyd]
                exact rwHeader_ne_nil (hLhd y h2h)
          · intro lt hlt
            rw [← hM, List.getLast?_map] at hlt
            cases hh1 : (Postprocess.dgStep ph L).getLast? with
            | none => rw [hh1] at hlt; simp at hlt
            | some y =>
              rw [hh1] at hlt
              have hyd : Postprocess.rwHeader ph y = lt := by simpa using hlt
              rcases getLast?_dgStep hh1 with h2h | h2h
              · rw [← hyd, h2h]
                exact rwHeader_ne_nil (dgLine_ne_nil ph)
              · rw [← hyd]
                exact rwHeader_ne_nil (hLlt y h2h)

theorem mem_interNL : ∀ {M : List (List Char)} {c : Char}, c ∈ interNL M →
    c = '\n' ∨ ∃ l ∈ M, c ∈ l := by
  intro M
  induction M with
  | nil => intro c hc; simp [interNL] at hc
  | cons l ls ih =>
    intro c hc
    cases ls with
    | nil =>
      right
      exact ⟨l, by simp, hc⟩
    | cons m ms =>
      have hc2 : c ∈ l ++ '\n' :: interNL (m :: ms) := hc
      rcases List.mem_append.1 hc2 with h1 | h1
      · exact Or.inr ⟨l, by simp, h1⟩
      · rcases List.mem_cons.1 h1 with h2 | h2
        · exact Or.inl h2
        · rcases ih h2 with h3 | h3
          · exact Or.inl h3
          · rcases h3 with ⟨l2, hl2, hcl2⟩
            exact Or.inr ⟨l2, List.mem_cons.2 (Or.inr hl2), hcl2⟩

theorem head?_interNL {M : List (List Char)} {hd : List Char}
    (h : M.head? = some hd) (hne : hd ≠ []) : (interNL M).head? = hd.head? := by
  cases M with
  | nil => simp at h
  | cons l ls =>
    have hl : l = hd := by simpa using h
    subst hl
    cases ls with
    | nil => rfl
    | cons m ms =>
      show (l ++ '\n' :: interNL (m :: ms)).head? = l.head?
      cases l with
      | nil => exact absurd rfl hne
      | cons c cs => rfl

theorem getLast?_interNL : ∀ {M : List (List Char)} {lt : List Char},
    M.getLast? = some lt → lt ≠ [] → (interNL M).getLast? = lt.getLast? := by
  intro M
  induction M with
  | nil => intro lt h _; simp at h
  | cons l ls ih =>
    intro lt h hne
    cases ls with
    | nil =>
      have hl : l = lt := by simpa using h
      subst hl
      rfl
    | cons m ms =>
      rw [List.getLast?_cons_cons] at h
      have hrec := ih h hne
      have hne2 : interNL (m :: ms) ≠ [] := by
        intro hnil
        rw [hnil] at hrec
        cases hlt : lt with
        | nil => exact hne hlt
        | cons a as =>
          rw [hlt] at hrec
          cases as with
          | nil => exact Option.noConfusion hrec.symm
          | cons b bs =>
            rw [List.getLast?_cons_cons] at hrec
            have hs : ((b :: bs).getLast?).isSome = true := by simp
            rw [← hrec] at hs
            exact Bool.noConfusion hs
      show (l ++ '\n' :: interNL (m :: ms)).getLast? = lt.getLast?
      rw [getLast?_app_cons]
      cases hI : interNL (m :: ms) with
      | nil => exact absurd hI hne2
      | cons a as =>
        rw [List.getLast?_cons_cons, ← hI]
        exact hrec

theorem lstripNL_eq_self {Z : List Char} (h : Z.head? ≠ some '\n') : lstripNL Z = Z := by
  unfold lstripNL
  cases Z with
  | nil => rfl
  | cons c cs =>
    have hc : ¬ c = '\n' := fun he => h (by rw [he]; rfl)
    rw [List.dropWhile_cons_of_neg (by simpa using hc)]

theorem rstripNL_eq_self {Z : List Char} (h : Z.getLast? ≠ some '\n') : rstripNL Z = Z := by
  unfold rstripNL
  cases hz : Z.reverse with
  | nil =>
    have hZ : Z = [] := by simpa using congrArg List.reverse hz
    rw [hZ]
    rfl
  | cons a as =>
    have ha : ¬ a = '\n' := by
      intro he
      apply h
      rw [← List.head?_reverse, hz, he]
      rfl
    rw [List.dropWhile_cons_of_neg (by simpa using ha), ← hz, List.reverse_reverse]

theorem head?_stripNLends_ne_nl {X : List Char} {c : Char}
    (h : (stripNLends X).head? = some c) : ¬ c = '\n' := by
  intro he
  subst he
  unfold stripNLends lstripNL at h
  have h2 := head?_dropWhile_not h
  simp at h2

theorem getLast?_stripNLends_ne_nl {X : List Char} {c : Char} (hne : stripNLends X ≠ [])
    (h : (stripNLends X).getLast? = some c) : ¬ c = '\n' := by
  intro he
  subst he
  unfold stripNLends at h hne
  rw [lstripNL_getLast? hne] at h
  unfold rstripNL at h
  rw [List.getLast?_reverse] at h
  have h2 := head?_dropWhile_not h
  simp at h2

theorem splitNL_head_ne_nil {c : Char} {cs : List Char} (hc : ¬ c = '\n') :
    ∀ hd, (splitNL (c :: cs)).head? = some hd → hd ≠ [] := by
  intro hd h
  unfold splitNL at h
  rw [if_neg hc] at h
  cases hs : splitNL cs with
  | nil =>
    rw [hs] at h
    have h2 : [c] = hd := by simpa using h
    rw [← h2]
    simp
  | cons l ls =>
    rw [hs] at h
    have h2 : c :: l = hd := by simpa using h
    rw [← h2]
    simp

theorem splitNL_getLast_ne_nil : ∀ {cs : List Char}, cs ≠ [] → cs.getLast? ≠ some '\n' →
    ∀ lt, (splitNL cs).getLast? = some lt → lt ≠ [] := by
  intro cs
  induction cs with
  | nil => intro h0 _ _ _; exact absurd rfl h0
  | cons c cs' ih =>
    intro _ hlast lt h
    cases cs' with
    | nil =>
      have hc : ¬ c = '\n' := by
        intro he
        apply hlast
        rw [he]
        simp
      unfold splitNL at h
      rw [if_neg hc] at h
      have h2 : [c] = lt := by simpa [splitNL] using h
      rw [← h2]
      simp
    | cons c2 cs'' =>
      have hlast2 : (c2 :: cs'').getLast? ≠ some '\n' := by
        intro he
        apply hlast
        rw [List.getLast?_cons_cons]
        exact he
      unfold splitNL at h
      by_cases hc : c = '\n'
      · rw [if_pos hc] at h
        cases hs : splitNL (c2 :: cs'') with
        | nil => exact absurd hs (splitNL_ne_nil _)
        | cons s ss =>
          rw [hs, List.getLast?_cons_cons, ← hs] at h
          exact ih (by simp) hlast2 lt h
      · rw [if_neg hc] at h
        cases hs : splitNL (c2 :: cs'') with
        | nil => exact absurd hs (splitNL_ne_nil _)
        | cons s ss =>
          rw [hs] at h
          cases ss with
          | nil =>
            have h2 : c :: s = lt := by simpa using h
            rw [← h2]
            simp
          | cons s2 ss' =>
            rw [List.getLast?_cons_cons] at h
            have h3 : (splitNL (c2 :: cs'')).getLast? = some lt := by
              rw [hs, List.getLast?_cons_cons]
              exact h
            exact ih (by simp) hlast2 lt h3

theorem oldH_char {ph : List Char} (hph : ∀ c ∈ ph, ¬ c = '\n' ∧ ¬ c = '\r') :
    ∀ c ∈ ("--- a/").data ++ ph, ¬ c = '\n' ∧ ¬ c = '\r' := by
  intro c hc
  rcases List.mem_append.1 hc with h1 | h1
  · constructor <;> (intro he; subst he; revert h1; decide)
  · exact hph c h1

theorem newH_char {ph : List Char} (hph : ∀ c ∈ ph, ¬ c = '\n' ∧ ¬ c = '\r') :
    ∀ c ∈ ("+++ b/").data ++ ph, ¬ c = '\n' ∧ ¬ c = '\r' := by
  intro c hc
  rcases List.mem_append.1 hc with h1 | h1
  · constructor <;> (intro he; subst he; revert h1; decide)
  · exact hph c h1

theorem dgLine_char {ph : List Char} (hph : ∀ c ∈ ph, ¬ c = '\n' ∧ ¬ c = '\r') :
    ∀ c ∈ Postprocess.dgLine ph, ¬ c = '\n' ∧ ¬ c = '\r' := by
  intro c hc
  rw [dgLine_eq] at hc
  rcases List.mem_append.1 hc with h1 | h1
  · constructor <;> (intro he; subst he; revert h1; decide)
  · rcases List.mem_append.1 h1 with h2 | h2
    · exact hph c h2
    · rcases List.mem_append.1 h2 with h3 | h3
      · constructor <;> (intro he; subst he; revert h3; decide)
      · exact hph c h3

theorem rwHeader_char {ph y : List Char} (hph : ∀ c ∈ ph, ¬ c = '\n' ∧ ¬ c = '\r')
    (hy : ∀ c ∈ y, ¬ c = '\n' ∧ ¬ c = '\r') :
    ∀ c ∈ Postprocess.rwHeader ph y, ¬ c = '\n' ∧ ¬ c = '\r' := by
  rcases rwHeader_cases ph y with hc | hc | hc <;> rw [hc]
  · exact hy
  · exact oldH_char hph
  · exact newH_char hph

/-- The rendering round trip: re-normalizing the rendered output of a
successful run recovers the same line list, provided the path hint is free of
newlines and carriage returns. -/
theorem prepare_roundtrip {ph X : List Char} {M : List (List Char)}
    (hph : ∀ c ∈ ph, ¬ c = '\n' ∧ ¬ c = '\r')
    (hXcr : ∀ c ∈ X, ¬ c = '\r')
    (hXne : ¬ stripNLends X = [])
    (hrun : Postprocess.prepareLines ph (splitNL (stripNLends X)) = some M) :
    stripNLends (mapCR (replCRLF (rstripNL (interNL M) ++ ['\n']))) = interNL M ∧
    ¬ interNL M = [] ∧
    Postprocess.prepareLines ph (splitNL (interNL M)) = some M := by
  have hnoNL : ∀ l ∈ splitNL (stripNLends X), ∀ c ∈ l, c ≠ '\n' :=
    fun l hl => noNL_splitNL (stripNLends X) l hl
  have hnoCR : ∀ l ∈ splitNL (stripNLends X), ∀ c ∈ l, ¬ c = '\r' :=
    fun l hl c hc => hXcr c (mem_stripNLends (mem_splitNL_mem (stripNLends X) l hl c hc))
  have hLhd : ∀ hd, (splitNL (stripNLends X)).head? = some hd → hd ≠ [] := by
    cases hC : stripNLends X with
    | nil => exact absurd hC hXne
    | cons c0 cr =>
      have hc0 : ¬ c0 = '\n' := head?_stripNLends_ne_nl (by rw [hC]; rfl)
      exact fun hd hh => splitNL_head_ne_nil hc0 hd hh
  have hLlt : ∀ lt, (splitNL (stripNLends X)).getLast? = some lt → lt ≠ [] := by
    cases hC : stripNLends X with
    | nil => exact absurd hC hXne
    | cons c0 cr =>
      have hlast : (c0 :: cr).getLast? ≠ some '\n' := by
        intro he
        exact getLast?_stripNLends_ne_nl hXne (by rw [hC]; exact he) rfl
      exact fun lt hh => splitNL_getLast_ne_nil (by simp) hlast lt hh
  obtain ⟨hfix, hmem, hMhd, hMlt⟩ := prepareLines_main hLhd hLlt hrun
  have hMchar : ∀ l ∈ M, ∀ c ∈ l, ¬ c = '\n' ∧ ¬ c = '\r' := by
    intro l hl
    rcases hmem l hl with h1 | h1 | h1 | ⟨y, hy, h1⟩
    · rw [h1]
      exact dgLine_char hph
    · rw [h1]
      exact oldH_char hph
    · rw [h1]
      exact newH_char hph
    · rw [h1]
      exact rwHeader_char hph (fun c hc => ⟨hnoNL y hy c hc, hnoCR y hy c hc⟩)
  have hMne : M ≠ [] := by
    intro he
    rw [he, prepareLines_eq] at hfix
    have hcnil : ¬ (([] : List (List Char)).any (fun l => hasPre ("@@") l)) = true := by simp
    rw [if_pos hcnil] at hfix
    exact Option.noConfusion hfix
  have hZsplit : splitNL (interNL M) = M :=
    splitNL_interNL hMne (fun l hl c hc => (hMchar l hl c hc).1)
  have hlastSome : ∃ y, M.getLast? = some y := by
    cases hgl : M.getLast? with
    | none => exact absurd (List.getLast?_eq_none_iff.1 hgl) hMne
    | some y => exact ⟨y, rfl⟩
  obtain ⟨mlast, hml⟩ := hlastSome
  have hmlne : mlast ≠ [] := hMlt mlast hml
  have hlcSome : ∃ lc, mlast.getLast? = some lc := by
    cases hgl : mlast.getLast? with
    | none => exact absurd (List.getLast?_eq_none_iff.1 hgl) hmlne
    | some y => exact ⟨y, rfl⟩
  obtain ⟨lc, hlc⟩ := hlcSome
  have hlcmem : lc ∈ mlast := List.mem_of_mem_getLast? (by simp [Option.mem_def, hlc])
  have hmlmem : mlast ∈ M := List.mem_of_mem_getLast? (by simp [Option.mem_def, hml])
  have hlcnl : ¬ lc = '\n' := (hMchar mlast hmlmem lc hlcmem).1
  have hZlast : (interNL M).getLast? = some lc := by
    rw [getLast?_interNL hml hmlne]
    exact hlc
  have hhdSome : ∃ hd, M.head? = some hd := by
    cases hMc : M with
    | nil => exact absurd hMc hMne
    | cons a b => exact ⟨a, rfl⟩
  obtain ⟨m0, hm0h⟩ := hhdSome
  have hm0ne := hMhd m0 hm0h
  have hm0mem : m0 ∈ M := List.mem_of_mem_head? (by simp [Option.mem_def, hm0h])
  have hchSome : ∃ ch ct, m0 = ch :: ct := by
    cases hm0c : m0 with
    | nil => exact absurd hm0c hm0ne
    | cons a b => exact ⟨a, b, rfl⟩
  obtain ⟨ch, ct, hchct⟩ := hchSome
  have hchmem : ch ∈ m0 := by
    rw [hchct]
    simp
  have hchnl : ¬ ch = '\n' := (hMchar m0 hm0mem ch hchmem).1
  have hZhd : (interNL M).head? = some ch := by
    rw [head?_interNL hm0h hm0ne, hchct]
    rfl
  have hrs : rstripNL (interNL M) = interNL M :=
    rstripNL_eq_self (by rw [hZlast]; simpa using hlcnl)
  have hls : lstripNL (interNL M) = interNL M :=
    lstripNL_eq_self (by rw [hZhd]; simpa using hchnl)
  have hZne : ¬ interNL M = [] := by
    intro he
    rw [he] at hZhd
    simp at hZhd
  have hZcr : ∀ c ∈ rstripNL (interNL M) ++ ['\n'], ¬ c = '\r' := by
    intro c hc
    rcases List.mem_append.1 hc with h1 | h1
    · have h2 := mem_rstripNL h1
      rcases mem_interNL h2 with h3 | ⟨l, hl, h4⟩
      · rw [h3]
        decide
      · exact (hMchar l hl c h4).2
    · have hcn : c = '\n' := by simpa using h1
      rw [hcn]
      decide
  refine ⟨?_, hZne, ?_⟩
  · rw [replCRLF_id (fun c hc => hZcr c hc), mapCR_id (fun c hc => hZcr c hc)]
    unfold stripNLends
    rw [rstripNL_append_nl, rstripNL_idem, hrs, hls]
  · rw [hZsplit]
    exact hfix

/-- `prepare_patch_for_application` with its let-bindings expanded. -/
theorem prepare_eq (patch : String) (file_path : Option String) :
    Postprocess.prepare_patch_for_application patch file_path =
      (if stripNLends (mapCR (replCRLF patch.data)) = [] then none
       else match Postprocess.prepareLines
           (match file_path with
            | some f => Postprocess.sanitize_path f
            | none => [])
           (splitNL (stripNLends (mapCR (replCRLF patch.data)))) with
         | none => none
         | some M => some (String.mk (rstripNL (interNL M) ++ ['\n']))) := rfl

/-- C10 (amended): diff normalization with a target path is idempotent
provided the sanitized target path contains no newline or carriage-return
character: if `prepare_patch_for_application p f` returns `q` (not none), then
normalizing `q` with the same `f` returns `q` unchanged. -/
theorem c10_idempotent_amended (p : String) (f : Option String) (q : String)
    (hph : ∀ c ∈ (match f with
        | some g => Postprocess.sanitize_path g
        | none => ([] : List Char)), ¬ c = '\n' ∧ ¬ c = '\r')
    (h : Postprocess.prepare_patch_for_application p f = some q) :
    Postprocess.prepare_patch_for_application q f = some q := by
  rw [prepare_eq] at h
  set PH := (match f with
    | some g => Postprocess.sanitize_path g
    | none => ([] : List Char)) with hPHdef
  by_cases hCne : stripNLends (mapCR (replCRLF p.data)) = []
  · rw [if_pos hCne] at h
    exact Option.noConfusion h
  · rw [if_neg hCne] at h
    cases hrun : Postprocess.prepareLines PH
        (splitNL (stripNLends (mapCR (replCRLF p.data)))) with
    | none =>
      rw [hrun] at h
      exact Option.noConfusion (show (none : Option String) = some q from h)
    | some M =>
      rw [hrun] at h
      have hq : String.mk (rstripNL (interNL M) ++ ['\n']) = q :=
        Option.some.inj
          (show some (String.mk (rstripNL (interNL M) ++ ['\n'])) = some q from h)
      have hXcr : ∀ c ∈ mapCR (replCRLF p.data), ¬ c = '\r' :=
        fun c hc => noCR_mapCR (replCRLF p.data) c hc
      obtain ⟨hrt, hZne, hfix2⟩ := prepare_roundtrip hph hXcr hCne hrun
      have hqdata : q.data = rstripNL (interNL M) ++ ['\n'] := by rw [← hq]
      rw [prepare_eq, ← hPHdef, hqdata, hrt, if_neg hZne, hfix2]
      show some (String.mk (rstripNL (interNL M) ++ ['\n'])) = some q
      rw [hq]

theorem c9_extract_witness :
    extract_patch (String.mk ((("x: ").data ++ (("```").data ++ (("diff").data ++
        ('\n' :: (((" @@ y\n").data) ++ (("```").data ++ ("tail").data)))))))) =
      some (String.mk
        (if (pyStrip ((" @@ y\n").data)).getLast? = some '\n' then pyStrip ((" @@ y\n").data)
         else pyStrip ((" @@ y\n").data) ++ ['\n'])) :=
  c9_extract_amended.1 (("x: ").data) ((" @@ y\n").data) (("tail").data) ("diff")
    (Or.inl rfl) (by decide) (by decide)

theorem c10_witness :
    (∀ c ∈ (match (some ("d/e.f") : Option String) with
        | some g => Postprocess.sanitize_path g
        | none => ([] : List Char)), ¬ c = '\n' ∧ ¬ c = '\r') ∧
    Postprocess.prepare_patch_for_application
        ("diff --git a/d/e.f b/d/e.f\n--- a/d/e.f\n+++ b/d/e.f\n@@ -1 +1 @@\n-a\n+b\n")
        (some ("d/e.f")) =
      some ("diff --git a/d/e.f b/d/e.f\n--- a/d/e.f\n+++ b/d/e.f\n@@ -1 +1 @@\n-a\n+b\n") :=
  ⟨by decide,
    c10_idempotent_amended ("@@ -1 +1 @@\n-a\n+b") (some ("d/e.f"))
      ("diff --git a/d/e.f b/d/e.f\n--- a/d/e.f\n+++ b/d/e.f\n@@ -1 +1 @@\n-a\n+b\n")
      (by decide) (by decide)⟩

/-! ### C5: parsing determinism, identifier purity, block-permutation invariance -/

theorem pfx_cons_same (a : Char) (as bs : List Char) : pfx (a :: as) (a :: bs) = pfx as bs := by
  simp [pfx]

theorem pfx_head_eq {a : Char} {as : List Char} {c : Char} {cs : List Char}
    (h : pfx (a :: as) (c :: cs) = true) : a = c := by
  have h2 : a = c ∧ pfx as cs = true := by simpa [pfx, Bool.and_eq_true] using h
  exact h2.1

theorem head_of_hasPre {s : String} {a : Char} {as : List Char} (hs : s.data = a :: as)
    {l : List Char} (h : hasPre s l = true) : l.head? = some a := by
  cases l with
  | nil =>
    rw [hasPre, hs] at h
    exact absurd h (by simp [pfx])
  | cons c cs =>
    rw [hasPre, hs] at h
    have hac := pfx_head_eq h
    rw [← hac]
    rfl

theorem upperAZ_facts {c : Char} (h : isUpperAZ c = true) :
    ¬ c = '\n' ∧ ¬ c = '#' ∧ ¬ c = '\r' ∧ pyIsWs c = false := by
  have h2 : 'A' ≤ c ∧ c ≤ 'Z' := by simpa [isUpperAZ] using h
  refine ⟨?_, ?_, ?_, ?_⟩
  · intro he; rw [he] at h2; exact absurd h2.1 (by decide)
  · intro he; rw [he] at h2; exact absurd h2.1 (by decide)
  · intro he; rw [he] at h2; exact absurd h2.1 (by decide)
  · cases hp : pyIsWs c
    · rfl
    · exfalso
      have h3 : c = ' ' ∨ c = '\t' ∨ c = '\n' ∨ c = '\r' ∨ c = '\x0b' ∨ c = '\x0c' := by
        simpa [pyIsWs] using hp
      rcases h3 with he | he | he | he | he | he <;> (rw [he] at h2; exact absurd h2.1 (by decide))

theorem takeWhile_append_stop (p : Char → Bool) (g : List Char) (d : Char) (t : List Char)
    (hg : ∀ c ∈ g, p c = true) (hd : p d = false) :
    (g ++ d :: t).takeWhile p = g ∧ (g ++ d :: t).dropWhile p = d :: t := by
  induction g with
  | nil =>
    constructor
    · exact List.takeWhile_cons_of_neg (by simp [hd])
    · exact List.dropWhile_cons_of_neg (by simp [hd])
  | cons a g' ih =>
    have ha : p a = true := hg a (by simp)
    obtain ⟨ih1, ih2⟩ := ih (fun c hc => hg c (by simp [hc]))
    constructor
    · rw [List.cons_append, List.takeWhile_cons_of_pos ha, ih1]
    · rw [List.cons_append, List.dropWhile_cons_of_pos ha, ih2]

theorem splitFirstNL_nl (X : List Char) : splitFirstNL ('\n' :: X) = some ([], X) := by
  unfold splitFirstNL
  rw [if_pos rfl]

theorem takeBody_cons (c : Char) (cs : List Char) :
    takeBody (c :: cs) =
      if hasPre ("\n### Assessment") (c :: cs) ∨ hasPre ("\n## ") (c :: cs)
      then ([], c :: cs) else (c :: (takeBody cs).1, (takeBody cs).2) := rfl

/-- Patterns beginning with `#` cannot match inside a `#`-free body or at a
chunk boundary newline. -/
theorem pfx_sharp_false (pat : List Char) (hpat : pat.head? = some '#')
    (body rest : List Char) (hb : ∀ c ∈ body, ¬ c = '#')
    (hr : rest = [] ∨ rest.head? = some '\n') : pfx pat (body ++ rest) = false := by
  cases hpc : pat with
  | nil => rw [hpc] at hpat; simp at hpat
  | cons p0 ps =>
    have hp0 : p0 = '#' := by rw [hpc] at hpat; simpa using hpat
    subst hp0
    cases body with
    | nil =>
      cases rest with
      | nil => rfl
      | cons r rs =>
        rcases hr with h0 | h0
        · exact absurd h0 (by simp)
        · have hrn : r = '\n' := by simpa using h0
          subst hrn
          exact pfx_false_head (by decide) ps rs
    | cons e body' =>
      have he : ¬ e = '#' := hb e (by simp)
      exact pfx_false_head (fun hh => he hh.symm) ps _

theorem hasPre_false_of_head {s : String} {a : Char} {as : List Char} (hs : s.data = a :: as)
    {c : Char} (h : ¬ a = c) (cs : List Char) : hasPre s (c :: cs) = false := by
  rw [hasPre, hs]
  exact pfx_false_head h as cs

theorem takeBody_split : ∀ (body rest : List Char), (∀ c ∈ body, ¬ c = '#') →
    (rest = [] ∨ hasPre ("\n### Assessment") rest = true) →
    takeBody (body ++ rest) = (body, rest) := by
  intro body
  induction body with
  | nil =>
    intro rest _ hr
    rcases hr with hr | hr
    · rw [hr]
      rfl
    · cases rest with
      | nil => exact absurd hr (by decide)
      | cons r rs =>
        show takeBody (r :: rs) = ([], r :: rs)
        rw [takeBody_cons, if_pos (Or.inl hr)]
  | cons d body' ih =>
    intro rest hb hr
    have hrhd : rest = [] ∨ rest.head? = some '\n' := by
      rcases hr with h0 | h0
      · exact Or.inl h0
      · exact Or.inr (head_of_hasPre rfl h0)
    have hb' : ∀ c ∈ body', ¬ c = '#' := fun c hc => hb c (by simp [hc])
    have h1 : hasPre ("\n### Assessment") (d :: (body' ++ rest)) = false := by
      by_cases hd : d = '\n'
      · subst hd
        show pfx (("\n### Assessment").data) ('\n' :: (body' ++ rest)) = false
        have hdec : ("\n### Assessment").data = '\n' :: ("### Assessment").data := rfl
        rw [hdec, pfx_cons_same]
        exact pfx_sharp_false (("### Assessment").data) rfl body' rest hb' hrhd
      · exact hasPre_false_of_head rfl (fun hh => hd hh.symm) _
    have h2 : hasPre ("\n## ") (d :: (body' ++ rest)) = false := by
      by_cases hd : d = '\n'
      · subst hd
        show pfx (("\n## ").data) ('\n' :: (body' ++ rest)) = false
        have hdec : ("\n## ").data = '\n' :: ("## ").data := rfl
        rw [hdec, pfx_cons_same]
        exact pfx_sharp_false (("## ").data) rfl body' rest hb' hrhd
      · exact hasPre_false_of_head rfl (fun hh => hd hh.symm) _
    show takeBody (d :: (body' ++ rest)) = (d :: body', rest)
    rw [takeBody_cons, if_neg (by simp [h1, h2]), ih rest hb' hr]

theorem takeUntilSub_cons (sub : List Char) (c : Char) (cs : List Char) :
    takeUntilSub sub (c :: cs) =
      if pfx sub (c :: cs) then [] else c :: takeUntilSub sub cs := rfl

theorem walkNoNl : ∀ (pre rest : List Char), (∀ c ∈ pre, ¬ c = '\n') →
    takeUntilSub (("\n## ").data) rest = rest →
    takeUntilSub (("\n## ").data) (pre ++ rest) = pre ++ rest := by
  intro pre
  induction pre with
  | nil => intro rest _ h; exact h
  | cons c pre' ih =>
    intro rest hp h
    have hc : ¬ c = '\n' := hp c (by simp)
    have hpf : pfx (("\n## ").data) (c :: (pre' ++ rest)) = false := by
      have hdec : ("\n## ").data = '\n' :: ("## ").data := rfl
      rw [hdec]
      exact pfx_false_head (fun hh => hc hh.symm) _ _
    show takeUntilSub (("\n## ").data) (c :: (pre' ++ rest)) = c :: (pre' ++ rest)
    rw [takeUntilSub_cons, if_neg (by simp [hpf]),
      ih rest (fun x hx => hp x (by simp [hx])) h]

theorem walkBody : ∀ (body rest : List Char), (∀ c ∈ body, ¬ c = '#') →
    (rest = [] ∨ rest.head? = some '\n') →
    takeUntilSub (("\n## ").data) rest = rest →
    takeUntilSub (("\n## ").data) (body ++ rest) = body ++ rest := by
  intro body
  induction body with
  | nil => intro rest _ _ h; exact h
  | cons d body' ih =>
    intro rest hb hr h
    have hb' : ∀ c ∈ body', ¬ c = '#' := fun c hc => hb c (by simp [hc])
    have hpf : pfx (("\n## ").data) (d :: (body' ++ rest)) = false := by
      by_cases hd : d = '\n'
      · subst hd
        have hdec : ("\n## ").data = '\n' :: ("## ").data := rfl
        rw [hdec, pfx_cons_same]
        exact pfx_sharp_false (("## ").data) rfl body' rest hb' hr
      · have hdec : ("\n## ").data = '\n' :: ("## ").data := rfl
        rw [hdec]
        exact pfx_false_head (fun hh => hd hh.symm) _ _
    show takeUntilSub (("\n## ").data) (d :: (body' ++ rest)) = d :: (body' ++ rest)
    rw [takeUntilSub_cons, if_neg (by simp [hpf]), ih rest hb' hr h]

theorem chunks_head (bs : List RBlock) : chunks bs = [] ∨ (chunks bs).head? = some '\n' := by
  cases bs with
  | nil => exact Or.inl rfl
  | cons b bs => exact Or.inr rfl

theorem chunks_hasPre (bs : List RBlock) :
    chunks bs = [] ∨ hasPre ("\n### Assessment") (chunks bs) = true := by
  cases bs with
  | nil => exact Or.inl rfl
  | cons b bs =>
    right
    show pfx (("\n### Assessment").data) ('\n' :: (rawOf b ++ chunks bs)) = true
    have hdec : ("\n### Assessment").data = '\n' :: ("### Assessment").data := rfl
    rw [hdec, pfx_cons_same, rawOf, List.append_assoc]
    exact pfx_mono _ (by decide)

theorem walkChunks : ∀ (bs : List RBlock), (∀ b ∈ bs, okBlock b) →
    takeUntilSub (("\n## ").data) (chunks bs) = chunks bs := by
  intro bs
  induction bs with
  | nil => intro _; rfl
  | cons b bs ih =>
    intro hok
    have hokb := hok b (by simp)
    have hokbs : ∀ x ∈ bs, okBlock x := fun x hx => hok x (by simp [hx])
    have hpf : pfx (("\n## ").data) ('\n' :: (rawOf b ++ chunks bs)) = false := by
      have hdec : ("\n## ").data = '\n' :: ("## ").data := rfl
      rw [hdec, pfx_cons_same, rawOf, List.append_assoc]
      exact pfx_false_append (by decide) (by decide) _
    have hpre : ∀ c ∈ assessLit ++ ' ' :: b.grade, ¬ c = '\n' := by
      intro c hc
      rcases List.mem_append.1 hc with h1 | h1
      · intro he; rw [he] at h1; revert h1; decide
      · rcases List.mem_cons.1 h1 with h2 | h2
        · rw [h2]; decide
        · exact (upperAZ_facts (hokb.2.1 c h2)).1
    have hrest : takeUntilSub (("\n## ").data) ('\n' :: (b.body ++ chunks bs))
        = '\n' :: (b.body ++ chunks bs) := by
      have hpf2 : pfx (("\n## ").data) ('\n' :: (b.body ++ chunks bs)) = false := by
        have hdec : ("\n## ").data = '\n' :: ("## ").data := rfl
        rw [hdec, pfx_cons_same]
        exact pfx_sharp_false (("## ").data) rfl b.body (chunks bs)
          (fun c hc => (hokb.2.2 c hc).1) (chunks_head bs)
      rw [takeUntilSub_cons, if_neg (by simp [hpf2]),
        walkBody b.body (chunks bs) (fun c hc => (hokb.2.2 c hc).1) (chunks_head bs) (ih hokbs)]
    have harr : rawOf b ++ chunks bs
        = (assessLit ++ ' ' :: b.grade) ++ ('\n' :: (b.body ++ chunks bs)) := by
      rw [rawOf]
      simp [List.append_assoc]
    show takeUntilSub (("\n## ").data) ('\n' :: (rawOf b ++ chunks bs))
        = '\n' :: (rawOf b ++ chunks bs)
    rw [takeUntilSub_cons, if_neg (by simp [hpf]), harr,
      walkNoNl (assessLit ++ ' ' :: b.grade) ('\n' :: (b.body ++ chunks bs)) hpre hrest]

theorem findSubAfter_self {sub : List Char} (hne : sub ≠ []) (rest : List Char) :
    findSubAfter sub (sub ++ rest) = some rest := by
  cases sub with
  | nil => exact absurd rfl hne
  | cons s ss =>
    show findSubAfter (s :: ss) (s :: (ss ++ rest)) = some rest
    unfold findSubAfter
    rw [if_pos (show pfx (s :: ss) (s :: (ss ++ rest)) = true from pfx_self_append (s :: ss) rest)]
    show some (((s :: ss) ++ rest).drop (s :: ss).length) = some rest
    rw [List.drop_left]

theorem tryAssess_eq (cs : List Char) :
    tryAssess cs =
      (if ((cs.drop assessLit.length).dropWhile pyIsWs).takeWhile isUpperAZ = [] then none
       else
         match splitFirstNL (((cs.drop assessLit.length).dropWhile pyIsWs).drop
             (((cs.drop assessLit.length).dropWhile pyIsWs).takeWhile isUpperAZ).length) with
         | none => none
         | some (mid, rest3) =>
           some (((cs.drop assessLit.length).dropWhile pyIsWs).takeWhile isUpperAZ,
             (takeBody rest3).1,
             assessLit ++ (cs.drop assessLit.length).takeWhile pyIsWs ++
               ((cs.drop assessLit.length).dropWhile pyIsWs).takeWhile isUpperAZ ++ mid ++
               '\n' :: (takeBody rest3).1,
             (takeBody rest3).2)) := rfl

theorem tryAssess_chunk (b : RBlock) (rest : List Char) (hok : okBlock b)
    (hrest : rest = [] ∨ hasPre ("\n### Assessment") rest = true) :
    tryAssess (rawOf b ++ rest) = some (b.grade, b.body, rawOf b, rest) := by
  obtain ⟨hgne, hgup, hbody⟩ := hok
  obtain ⟨gc, G', hG⟩ : ∃ gc G', b.grade = gc :: G' := by
    cases hg : b.grade with
    | nil => exact absurd hg hgne
    | cons x xs => exact ⟨x, xs, rfl⟩
  have hdrop : (rawOf b ++ rest).drop assessLit.length
      = ' ' :: (b.grade ++ '\n' :: (b.body ++ rest)) := by
    rw [rawOf, List.append_assoc, List.drop_left]
    simp [List.append_assoc]
  have hwsdrop : ((' ' :: (b.grade ++ '\n' :: (b.body ++ rest))).takeWhile pyIsWs = [' ']) ∧
      ((' ' :: (b.grade ++ '\n' :: (b.body ++ rest))).dropWhile pyIsWs
        = b.grade ++ '\n' :: (b.body ++ rest)) := by
    rw [hG]
    have h1 := takeWhile_append_stop pyIsWs ([' ']) gc (G' ++ '\n' :: (b.body ++ rest))
      (by
        intro c hc
        have hcw : c = ' ' := by simpa using hc
        rw [hcw]
        decide)
      ((upperAZ_facts (hgup gc (by rw [hG]; simp))).2.2.2)
    exact ⟨h1.1, h1.2⟩
  have hgtake : (b.grade ++ '\n' :: (b.body ++ rest)).takeWhile isUpperAZ = b.grade :=
    (takeWhile_append_stop isUpperAZ b.grade '\n' (b.body ++ rest) hgup (by decide)).1
  have hgdroplen : (b.grade ++ '\n' :: (b.body ++ rest)).drop b.grade.length
      = '\n' :: (b.body ++ rest) := List.drop_left _ _
  rw [tryAssess_eq, hdrop, hwsdrop.1, hwsdrop.2, hgtake, hgdroplen, splitFirstNL_nl,
    if_neg hgne]
  show some (b.grade, (takeBody (b.body ++ rest)).1,
      assessLit ++ [' '] ++ b.grade ++ [] ++ '\n' :: (takeBody (b.body ++ rest)).1,
      (takeBody (b.body ++ rest)).2) = some (b.grade, b.body, rawOf b, rest)
  rw [takeBody_split b.body rest (fun c hc => (hbody c hc).1) hrest]
  simp [rawOf, List.append_assoc]

theorem findAssessF_cons (fuel : Nat) (c : Char) (cs : List Char) :
    findAssessF (fuel + 1) (c :: cs) =
      if pfx assessLit (c :: cs) then
        match tryAssess (c :: cs) with
        | some (g, body, raw, rest) => (g, body, raw) :: findAssessF fuel rest
        | none => findAssessF fuel cs
      else findAssessF fuel cs := rfl

theorem findAssessF_chunks : ∀ (bs : List RBlock) (fuel : Nat), (∀ b ∈ bs, okBlock b) →
    2 * bs.length ≤ fuel →
    findAssessF fuel (chunks bs) = bs.map (fun b => (b.grade, b.body, rawOf b)) := by
  intro bs
  induction bs with
  | nil =>
    intro fuel _ _
    cases fuel with
    | zero => rfl
    | succ f => rfl
  | cons b bs ih =>
    intro fuel hok hfuel
    obtain ⟨f, rfl⟩ : ∃ f, fuel = f + 2 :=
      ⟨fuel - 2, by simp only [List.length_cons] at hfuel; omega⟩
    have hokb := hok b (by simp)
    have hokbs : ∀ x ∈ bs, okBlock x := fun x hx => hok x (by simp [hx])
    have hfuel' : 2 * bs.length ≤ f := by
      simp only [List.length_cons] at hfuel
      omega
    have hskip : pfx assessLit ('\n' :: (rawOf b ++ chunks bs)) = false := by
      have hdec : assessLit = '#' :: (("## Assessment of the change:").data) := rfl
      rw [hdec]
      exact pfx_false_head (by decide) _ _
    have hcons : rawOf b ++ chunks bs
        = '#' :: ((("## Assessment of the change:").data
            ++ ' ' :: (b.grade ++ '\n' :: b.body)) ++ chunks bs) := by
      rw [rawOf]
      rfl
    have hmatch : pfx assessLit ('#' :: ((("## Assessment of the change:").data
        ++ ' ' :: (b.grade ++ '\n' :: b.body)) ++ chunks bs)) = true := by
      rw [← hcons, rawOf, List.append_assoc]
      exact pfx_self_append _ _
    have htry : tryAssess ('#' :: ((("## Assessment of the change:").data
        ++ ' ' :: (b.grade ++ '\n' :: b.body)) ++ chunks bs))
        = some (b.grade, b.body, rawOf b, chunks bs) := by
      rw [← hcons]
      exact tryAssess_chunk b (chunks bs) hokb (chunks_hasPre bs)
    show findAssessF (f + 1 + 1) ('\n' :: (rawOf b ++ chunks bs)) = _
    rw [findAssessF_cons, if_neg (by simp [hskip]), hcons, findAssessF_cons,
      if_pos hmatch, htry]
    show (b.grade, b.body, rawOf b) :: findAssessF f (chunks bs) = _
    rw [ih f hokbs hfuel', List.map_cons]

theorem chunks_length (bs : List RBlock) : 2 * bs.length ≤ (chunks bs).length := by
  induction bs with
  | nil => simp [chunks]
  | cons b bs ih =>
    have hrne : rawOf b ≠ [] := fun he => absurd (List.append_eq_nil.1 he).1 (by decide)
    have hrpos : 0 < (rawOf b).length := List.length_pos.2 hrne
    have hchunk : (chunk b).length = (rawOf b).length + 1 := by simp [chunk]
    have happ : (chunks (b :: bs)).length = (chunk b).length + (chunks bs).length := by
      show (chunk b ++ chunks bs).length = _
      rw [List.length_append]
    simp only [List.length_cons]
    omega

theorem findAssess_eq (cs : List Char) : findAssess cs = findAssessF cs.length cs := rfl

theorem parse_eq (t : String) :
    parse_bad_findings t =
      (match findSubAfter (("## Change-by-Change Review").data) (replCRLF t.data) with
       | none => []
       | some rest =>
         (findAssess (takeUntilSub (("\n## ").data) rest)).filterMap (fun a =>
           if String.mk (upperL (pyStrip a.1)) = ("BAD" : String)
           then some (mkFinding (pyStrip a.2.2) a.2.1) else none)) := rfl

theorem mem_chunks : ∀ {bs : List RBlock} {c : Char}, c ∈ chunks bs →
    ∃ b ∈ bs, c ∈ chunk b := by
  intro bs
  induction bs with
  | nil => intro c hc; simp [chunks] at hc
  | cons b bs ih =>
    intro c hc
    have hc2 : c ∈ chunk b ++ chunks bs := hc
    rcases List.mem_append.1 hc2 with h1 | h1
    · exact ⟨b, by simp, h1⟩
    · rcases ih h1 with ⟨b', hb', h2⟩
      exact ⟨b', by simp [hb'], h2⟩

theorem chunk_char {b : RBlock} (hok : okBlock b) : ∀ c ∈ chunk b, c ≠ '\r' := by
  intro c hc
  rcases List.mem_cons.1 hc with h1 | h1
  · rw [h1]; decide
  · rcases List.mem_append.1 h1 with h2 | h2
    · intro he; rw [he] at h2; revert h2; decide
    · rcases List.mem_cons.1 h2 with h3 | h3
      · rw [h3]; decide
      · rcases List.mem_append.1 h3 with h4 | h4
        · exact (upperAZ_facts (hok.2.1 c h4)).2.2.1
        · rcases List.mem_cons.1 h4 with h5 | h5
          · rw [h5]; decide
          · exact (hok.2.2 c h5).2

theorem mkReport_noCR (bs : List RBlock) (hok : ∀ b ∈ bs, okBlock b) :
    ∀ c ∈ (("## Change-by-Change Review").data ++ chunks bs), c ≠ '\r' := by
  intro c hc
  rcases List.mem_append.1 hc with h1 | h1
  · intro he; rw [he] at h1; revert h1; decide
  · rcases mem_chunks h1 with ⟨b, hb, h2⟩
    exact chunk_char (hok b hb) c h2

theorem filterMap_blocks : ∀ bs : List RBlock,
    ((bs.map (fun b => (b.grade, b.body, rawOf b))).filterMap (fun a =>
      if String.mk (upperL (pyStrip a.1)) = ("BAD" : String)
      then some (mkFinding (pyStrip a.2.2) a.2.1) else none)) =
    (bs.filter (fun b => String.mk (upperL (pyStrip b.grade)) = ("BAD" : String))).map
      (fun b => mkFinding (pyStrip (rawOf b)) b.body) := by
  intro bs
  induction bs with
  | nil => rfl
  | cons b bs ih =>
    by_cases hg : String.mk (upperL (pyStrip b.grade)) = ("BAD" : String)
    · simp [List.filterMap_cons, List.filter_cons, hg, ih]
    · simp [List.filterMap_cons, List.filter_cons, hg, ih]

theorem parse_mkReport (bs : List RBlock) (hok : ∀ b ∈ bs, okBlock b) :
    parse_bad_findings (mkReport bs) =
      (bs.filter (fun b => String.mk (upperL (pyStrip b.grade)) = ("BAD" : String))).map
        (fun b => mkFinding (pyStrip (rawOf b)) b.body) := by
  rw [parse_eq]
  have hdata : (mkReport bs).data = ("## Change-by-Change Review").data ++ chunks bs := rfl
  rw [hdata, replCRLF_id (mkReport_noCR bs hok),
    findSubAfter_self (by decide) (chunks bs)]
  show (findAssess (takeUntilSub (("\n## ").data) (chunks bs))).filterMap _ = _
  rw [walkChunks bs hok, findAssess_eq,
    findAssessF_chunks bs (chunks bs).length hok (chunks_length bs)]
  exact filterMap_blocks bs

theorem parse_id_pure (t : String) :
    ∀ fd ∈ parse_bad_findings t, fd.identifier = idOf fd.raw_block.data := by
  intro fd hfd
  rw [parse_eq] at hfd
  cases hsub : findSubAfter (("## Change-by-Change Review").data) (replCRLF t.data) with
  | none =>
    rw [hsub] at hfd
    simp at hfd
  | some rest =>
    rw [hsub] at hfd
    have hfd2 : fd ∈ (findAssess (takeUntilSub (("\n## ").data) rest)).filterMap (fun a =>
        if String.mk (upperL (pyStrip a.1)) = ("BAD" : String)
        then some (mkFinding (pyStrip a.2.2) a.2.1) else none) := hfd
    rcases List.mem_filterMap.1 hfd2 with ⟨a, _, ha⟩
    have ha2 : (if String.mk (upperL (pyStrip a.1)) = ("BAD" : String)
        then some (mkFinding (pyStrip a.2.2) a.2.1) else none) = some fd := ha
    by_cases hg : String.mk (upperL (pyStrip a.1)) = ("BAD" : String)
    · rw [if_pos hg] at ha2
      have hfd3 : mkFinding (pyStrip a.2.2) a.2.1 = fd := Option.some.inj ha2
      rw [← hfd3]
      rfl
    · rw [if_neg hg] at ha2
      exact Option.noConfusion ha2

theorem parse_ids (bs : List RBlock) (hok : ∀ b ∈ bs, okBlock b) :
    (parse_bad_findings (mkReport bs)).map (fun fd => fd.identifier) =
      (bs.filter (fun b => String.mk (upperL (pyStrip b.grade)) = ("BAD" : String))).map
        (fun b => idOf (pyStrip (rawOf b))) := by
  rw [parse_mkReport bs hok, List.map_map]
  exact List.map_congr_left (fun b _ => rfl)

/-- C5: parsing is deterministic and each finding's identifier is a pure
function of its own raw block text.  First conjunct: every parsed finding's
identifier equals the first 16 hex characters of the SHA-256 digest of its own
(stripped) raw block.  Second conjunct: for a report built from whole
assessment blocks, the identifier sequence is exactly the retained (BAD)
blocks' own-block digests, in block order — so re-parsing identical text gives
identical identifiers in identical order.  Third conjunct: permuting whole
assessment blocks within the findings section permutes the identifier list
accordingly, each retained finding keeping the identifier computed from its
own block. -/
theorem c5_deterministic_pure_ids (t : String) (bs bs2 : List RBlock)
    (hok : ∀ b ∈ bs, okBlock b) (hperm : List.Perm bs bs2) :
    (∀ fd ∈ parse_bad_findings t, fd.identifier = idOf fd.raw_block.data) ∧
    (parse_bad_findings (mkReport bs)).map (fun fd => fd.identifier) =
      (bs.filter (fun b => String.mk (upperL (pyStrip b.grade)) = ("BAD" : String))).map
        (fun b => idOf (pyStrip (rawOf b))) ∧
    List.Perm ((parse_bad_findings (mkReport bs)).map (fun fd => fd.identifier))
      ((parse_bad_findings (mkReport bs2)).map (fun fd => fd.identifier)) := by
  have hok2 : ∀ b ∈ bs2, okBlock b := fun b hb => hok b (hperm.mem_iff.2 hb)
  refine ⟨parse_id_pure t, parse_ids bs hok, ?_⟩
  rw [parse_ids bs hok, parse_ids bs2 hok2]
  exact (hperm.filter _).map _

theorem c5_witness :
    (∀ fd ∈ parse_bad_findings ("r"), fd.identifier = idOf fd.raw_block.data) ∧
    (parse_bad_findings (mkReport
        [⟨("BAD").data, ("b1").data⟩, ⟨("GOOD").data, ("b2").data⟩])).map
        (fun fd => fd.identifier) =
      ([⟨("BAD").data, ("b1").data⟩, ⟨("GOOD").data, ("b2").data⟩].filter
        (fun b => String.mk (upperL (pyStrip b.grade)) = ("BAD" : String))).map
        (fun b => idOf (pyStrip (rawOf b))) ∧
    List.Perm ((parse_bad_findings (mkReport
        [⟨("BAD").data, ("b1").data⟩, ⟨("GOOD").data, ("b2").data⟩])).map
        (fun fd => fd.identifier))
      ((parse_bad_findings (mkReport
        [⟨("GOOD").data, ("b2").data⟩, ⟨("BAD").data, ("b1").data⟩])).map
        (fun fd => fd.identifier)) :=
  c5_deterministic_pure_ids ("r")
    [⟨("BAD").data, ("b1").data⟩, ⟨("GOOD").data, ("b2").data⟩]
    [⟨("GOOD").data, ("b2").data⟩, ⟨("BAD").data, ("b1").data⟩]
    (by decide) (by decide)

end CodeReview
